import Mathlib

/- Verification of the Aether backend (src/backend/app.py): the streaming
directive interceptor of `_stream_chat`, the tiered keyword retrieval of
`db_keyword_search`, and the SQLite/Chroma memory store.  Strings are
embedded as `List Char`; Python's `str.find` is `findSub`. -/

namespace Aether

/-- `findSub pat s` is the least index `i` such that `pat` is a prefix of
`s.drop i`, or `none` if there is no occurrence; it models Python's
`str.find` (with -1 rendered as `none`). -/
def findSub (pat : List Char) : List Char → Option Nat
  | [] => if pat = [] then some 0 else none
  | c :: rest =>
    if pat.isPrefixOf (c :: rest) then some 0
    else (findSub pat rest).map (· + 1)

theorem findSub_nil_pat (s : List Char) : findSub [] s = some 0 := by
  cases s with
  | nil => simp [findSub]
  | cons c rest => simp [findSub, List.isPrefixOf]

theorem findSub_bound {pat s : List Char} {i : Nat} (h : findSub pat s = some i) :
    i + pat.length ≤ s.length := by
  induction s generalizing i with
  | nil =>
    unfold findSub at h
    split at h
    · next hp => cases h; simp [hp]
    · cases h
  | cons c rest ih =>
    unfold findSub at h
    split at h
    · next hp =>
      cases h
      have := (List.isPrefixOf_iff_prefix.mp hp).length_le
      simpa using this
    · next hp =>
      rcases Option.map_eq_some'.mp h with ⟨j, hj, rfl⟩
      have := ih hj
      simp only [List.length_cons]
      omega

theorem findSub_prefix {pat s : List Char} {i : Nat} (h : findSub pat s = some i) :
    pat <+: s.drop i := by
  induction s generalizing i with
  | nil =>
    unfold findSub at h
    split at h
    · next hp => cases h; simp [hp]
    · cases h
  | cons c rest ih =>
    unfold findSub at h
    split at h
    · next hp => cases h; exact List.isPrefixOf_iff_prefix.mp hp
    · next hp =>
      rcases Option.map_eq_some'.mp h with ⟨j, hj, rfl⟩
      simpa using ih hj

theorem findSub_min {pat s : List Char} {i j : Nat} (h : findSub pat s = some i)
    (hj : pat <+: s.drop j) : i ≤ j := by
  induction s generalizing i j with
  | nil =>
    unfold findSub at h
    split at h
    · cases h; omega
    · cases h
  | cons c rest ih =>
    unfold findSub at h
    split at h
    · cases h; omega
    · next hp =>
      rcases Option.map_eq_some'.mp h with ⟨k, hk, rfl⟩
      cases j with
      | zero =>
        exact absurd (List.isPrefixOf_iff_prefix.mpr (by simpa using hj)) hp
      | succ j' =>
        have := ih hk (by simpa using hj)
        omega

theorem findSub_none {pat s : List Char} (h : findSub pat s = none) (j : Nat) :
    ¬ pat <+: s.drop j := by
  induction s generalizing j with
  | nil =>
    unfold findSub at h
    split at h
    · cases h
    · next hp =>
      intro hpre
      exact hp (by simpa using List.prefix_nil.mp (by simpa using hpre))
  | cons c rest ih =>
    unfold findSub at h
    split at h
    · cases h
    · next hp =>
      have hrest : findSub pat rest = none := by
        cases hfs : findSub pat rest with
        | none => rfl
        | some k => rw [hfs] at h; cases h
      cases j with
      | zero =>
        intro hpre
        exact hp (List.isPrefixOf_iff_prefix.mpr (by simpa using hpre))
      | succ j' =>
        simpa using ih hrest j'

theorem findSub_isSome_of_prefix {pat s : List Char} {j : Nat} (h : pat <+: s.drop j) :
    ∃ i, findSub pat s = some i ∧ i ≤ j := by
  cases hfs : findSub pat s with
  | none => exact absurd h (findSub_none hfs j)
  | some i => exact ⟨i, rfl, findSub_min hfs h⟩

/-- A prefix of an appended list that fits inside the left part is a prefix
of the left part. -/
theorem prefix_of_append_of_le {pat l t : List Char} (h : pat <+: l ++ t)
    (hlen : pat.length ≤ l.length) : pat <+: l := by
  have := List.prefix_iff_eq_take.mp h
  rw [List.take_append_of_le_length hlen] at this
  exact List.prefix_iff_eq_take.mpr this

theorem findSub_append {pat s t : List Char} {i : Nat} (h : findSub pat s = some i) :
    findSub pat (s ++ t) = some i := by
  induction s generalizing i with
  | nil =>
    unfold findSub at h
    split at h
    · next hp => cases h; rw [hp]; exact findSub_nil_pat _
    · cases h
  | cons c rest ih =>
    unfold findSub at h
    split at h
    · next hp =>
      cases h
      have : pat.isPrefixOf ((c :: rest) ++ t) := by
        exact List.isPrefixOf_iff_prefix.mpr
          ((List.isPrefixOf_iff_prefix.mp hp).trans (List.prefix_append _ _))
      simpa [findSub] using this
    · next hp =>
      rcases Option.map_eq_some'.mp h with ⟨j, hj, rfl⟩
      have hb := findSub_bound hj
      have hnp : ¬ pat.isPrefixOf ((c :: rest) ++ t) := by
        intro hcon
        exact hp (List.isPrefixOf_iff_prefix.mpr
          (prefix_of_append_of_le (List.isPrefixOf_iff_prefix.mp hcon)
            (by simp; omega)))
      rw [List.cons_append]
      unfold findSub
      rw [if_neg (by simpa using hnp), ih hj]
      rfl

theorem findSub_drop_some {pat s : List Char} {i k : Nat} (h : findSub pat s = some i)
    (hk : k ≤ i) : findSub pat (s.drop k) = some (i - k) := by
  have hdd : (s.drop k).drop (i - k) = s.drop i := by
    rw [List.drop_drop]
    congr 1
    omega
  have hpre : pat <+: (s.drop k).drop (i - k) := by
    rw [hdd]; exact findSub_prefix h
  rcases findSub_isSome_of_prefix hpre with ⟨v, hv, hvle⟩
  have hvpre : pat <+: s.drop (k + v) := by
    have hx := findSub_prefix hv
    rwa [List.drop_drop] at hx
  have hmin := findSub_min h hvpre
  have hveq : v = i - k := by omega
  rw [hv, hveq]

theorem findSub_drop_none {pat s : List Char} (h : findSub pat s = none) (k : Nat) :
    findSub pat (s.drop k) = none := by
  cases hfs : findSub pat (s.drop k) with
  | none => rfl
  | some v =>
    have hx := findSub_prefix hfs
    rw [List.drop_drop] at hx
    exact absurd hx (findSub_none h (k + v))

/-! ### The directive markers (app.py: TOOL_MARKERS, TOOL_END) -/

def saveMarker : List Char := "<<<SAVE_MEMORY:".data

def suggestMarker : List Char := "<<<SUGGEST_MEMORY:".data

def TOOL_MARKERS : List (List Char) := [saveMarker, suggestMarker]

def TOOL_END : List Char := ">>>".data

theorem saveMarker_length : saveMarker.length = 15 := by decide

theorem suggestMarker_length : suggestMarker.length = 18 := by decide

theorem TOOL_END_length : TOOL_END.length = 3 := by decide

/-- The scanning-mode search of `_stream_chat`: iterate over `TOOL_MARKERS`
keeping the marker with the smallest `find` index, starting from
`(found_marker, found_idx) = (None, len(tool_buffer))`.  (The guard
`idx < found_idx` against the initial value never rejects, since a found
index is always `< len(tool_buffer)`.) -/
def findMarker (buf : List Char) : Option (List Char) × Nat :=
  TOOL_MARKERS.foldl
    (fun acc marker =>
      match findSub marker buf with
      | some idx => if idx < acc.2 then (some marker, idx) else acc
      | none => acc)
    (none, buf.length)

theorem findMarker_eq (buf : List Char) :
    findMarker buf =
      match findSub saveMarker buf, findSub suggestMarker buf with
      | none, none => (none, buf.length)
      | some i, none => (some saveMarker, i)
      | none, some j => (some suggestMarker, j)
      | some i, some j =>
        if j < i then (some suggestMarker, j) else (some saveMarker, i) := by
  unfold findMarker TOOL_MARKERS
  simp only [List.foldl]
  cases h1 : findSub saveMarker buf with
  | none =>
    cases h2 : findSub suggestMarker buf with
    | none => simp
    | some j =>
      have hb := findSub_bound h2
      rw [suggestMarker_length] at hb
      have : j < buf.length := by omega
      simp [this]
  | some i =>
    have hb1 := findSub_bound h1
    rw [saveMarker_length] at hb1
    have hi : i < buf.length := by omega
    cases h2 : findSub suggestMarker buf with
    | none => simp [hi]
    | some j => simp [hi]

theorem findMarker_none_elim {buf : List Char} {x : Nat}
    (h : findMarker buf = (none, x)) :
    findSub saveMarker buf = none ∧ findSub suggestMarker buf = none := by
  rw [findMarker_eq] at h
  cases h1 : findSub saveMarker buf with
  | none =>
    cases h2 : findSub suggestMarker buf with
    | none => exact ⟨rfl, rfl⟩
    | some j => rw [h1, h2] at h; simp at h
  | some i =>
    cases h2 : findSub suggestMarker buf with
    | none => rw [h1, h2] at h; simp at h
    | some j =>
      rw [h1, h2] at h
      by_cases hc : j < i <;> simp [hc] at h

theorem findMarker_some_findSub {buf m : List Char} {i : Nat}
    (h : findMarker buf = (some m, i)) :
    findSub m buf = some i ∧ (m = saveMarker ∨ m = suggestMarker) := by
  rw [findMarker_eq] at h
  cases h1 : findSub saveMarker buf with
  | none =>
    cases h2 : findSub suggestMarker buf with
    | none => rw [h1, h2] at h; simp at h
    | some j =>
      rw [h1, h2] at h
      simp only [Prod.mk.injEq, Option.some.injEq] at h
      exact ⟨by rw [← h.1, h2, h.2], Or.inr h.1.symm⟩
  | some i' =>
    cases h2 : findSub suggestMarker buf with
    | none =>
      rw [h1, h2] at h
      simp only [Prod.mk.injEq, Option.some.injEq] at h
      exact ⟨by rw [← h.1, h1, h.2], Or.inl h.1.symm⟩
    | some j =>
      rw [h1, h2] at h
      by_cases hc : j < i' <;> simp only [hc, if_true, if_false,
        Prod.mk.injEq, Option.some.injEq] at h
      · exact ⟨by rw [← h.1, h2, h.2], Or.inr h.1.symm⟩
      · exact ⟨by rw [← h.1, h1, h.2], Or.inl h.1.symm⟩

/-- An occurrence created by appending `t` must overhang the old end. -/
theorem findSub_new_occurrence {pat buf t : List Char} {v : Nat}
    (hn : findSub pat buf = none) (hs : findSub pat (buf ++ t) = some v) :
    buf.length < v + pat.length := by
  by_contra hcon
  push_neg at hcon
  have hvle : v ≤ buf.length := by
    have := findSub_bound hs
    by_cases hp0 : pat.length = 0
    · have : pat = [] := List.length_eq_zero.mp hp0
      rw [this, findSub_nil_pat] at hn; cases hn
    · omega
  have hpre : pat <+: (buf ++ t).drop v := findSub_prefix hs
  rw [List.drop_append_of_le_length hvle] at hpre
  have : pat <+: buf.drop v :=
    prefix_of_append_of_le hpre (by rw [List.length_drop]; omega)
  exact absurd this (findSub_none hn v)

theorem take_drop_take {s : List Char} {a b c : Nat} (h : b + a ≤ c) :
    ((s.take c).drop b).take a = (s.drop b).take a := by
  rw [List.drop_take, List.take_take]
  congr 1
  omega

theorem cross_marker_impossible {u : List Char} {d : Nat}
    (hsug : suggestMarker <+: u) (hsave : saveMarker <+: u.drop d)
    (hd1 : 1 ≤ d) (hd2 : d ≤ 2) : False := by
  have h18 : u.take 18 = suggestMarker := by
    have := List.prefix_iff_eq_take.mp hsug
    rw [suggestMarker_length] at this
    exact this.symm
  have h15 : (u.drop d).take 15 = saveMarker := by
    have := List.prefix_iff_eq_take.mp hsave
    rw [saveMarker_length] at this
    exact this.symm
  have hkey : (suggestMarker.drop d).take 15 = saveMarker := by
    rw [← h18, take_drop_take (by omega), h15]
  interval_cases d
  · exact absurd hkey (by decide)
  · exact absurd hkey (by decide)

theorem findMarker_append {buf t m : List Char} {i : Nat}
    (h : findMarker buf = (some m, i)) : findMarker (buf ++ t) = (some m, i) := by
  rw [findMarker_eq] at h
  rw [findMarker_eq]
  cases h1 : findSub saveMarker buf with
  | none =>
    cases h2 : findSub suggestMarker buf with
    | none => rw [h1, h2] at h; simp at h
    | some i2 =>
      rw [h1, h2] at h
      rw [findSub_append h2]
      have hb2 := findSub_bound h2
      rw [suggestMarker_length] at hb2
      cases h1' : findSub saveMarker (buf ++ t) with
      | none => exact h
      | some v =>
        have hnew := findSub_new_occurrence h1 h1'
        rw [saveMarker_length] at hnew
        have hlt : i2 < v := by omega
        show (if i2 < v then ((some suggestMarker : Option (List Char)), i2)
          else (some saveMarker, v)) = (some m, i)
        rw [if_pos hlt]
        exact h
  | some i1 =>
    have hb1 := findSub_bound h1
    rw [saveMarker_length] at hb1
    cases h2 : findSub suggestMarker buf with
    | none =>
      rw [h1, h2] at h
      rw [findSub_append h1]
      cases h2' : findSub suggestMarker (buf ++ t) with
      | none => exact h
      | some v =>
        have hnew := findSub_new_occurrence h2 h2'
        rw [suggestMarker_length] at hnew
        have hvi : ¬ v < i1 := by
          intro hlt
          have hd1 : 1 ≤ i1 - v := by omega
          have hd2 : i1 - v ≤ 2 := by omega
          have hsug : suggestMarker <+: (buf ++ t).drop v := findSub_prefix h2'
          have hsave : saveMarker <+: ((buf ++ t).drop v).drop (i1 - v) := by
            rw [List.drop_drop]
            have hvd : v + (i1 - v) = i1 := by omega
            rw [hvd]
            exact findSub_prefix (findSub_append h1)
          exact cross_marker_impossible hsug hsave hd1 hd2
        show (if v < i1 then ((some suggestMarker : Option (List Char)), v)
          else (some saveMarker, i1)) = (some m, i)
        rw [if_neg hvi]
        exact h
    | some i2 =>
      rw [h1, h2] at h
      rw [findSub_append h1, findSub_append h2]
      exact h

theorem findMarker_drop {buf m : List Char} {i k : Nat}
    (h : findMarker buf = (some m, i)) (hk : k ≤ i) :
    findMarker (buf.drop k) = (some m, i - k) := by
  rw [findMarker_eq] at h
  rw [findMarker_eq]
  cases h1 : findSub saveMarker buf with
  | none =>
    cases h2 : findSub suggestMarker buf with
    | none => rw [h1, h2] at h; simp at h
    | some i2 =>
      rw [h1, h2] at h
      have h' : ((some suggestMarker : Option (List Char)), i2) = (some m, i) := h
      obtain ⟨hm, hi⟩ : suggestMarker = m ∧ i2 = i := by simpa using h'
      subst hm; subst hi
      rw [findSub_drop_none h1, findSub_drop_some h2 hk]
  | some i1 =>
    cases h2 : findSub suggestMarker buf with
    | none =>
      rw [h1, h2] at h
      have h' : ((some saveMarker : Option (List Char)), i1) = (some m, i) := h
      obtain ⟨hm, hi⟩ : saveMarker = m ∧ i1 = i := by simpa using h'
      subst hm; subst hi
      rw [findSub_drop_none h2, findSub_drop_some h1 hk]
    | some i2 =>
      rw [h1, h2] at h
      have h' : (if i2 < i1 then ((some suggestMarker : Option (List Char)), i2)
        else (some saveMarker, i1)) = (some m, i) := h
      by_cases hc : i2 < i1
      · rw [if_pos hc] at h'
        obtain ⟨hm, hi⟩ : suggestMarker = m ∧ i2 = i := by simpa using h'
        subst hm; subst hi
        have hk1 : k ≤ i1 := by omega
        rw [findSub_drop_some h1 hk1, findSub_drop_some h2 hk]
        show (if i2 - k < i1 - k then ((some suggestMarker : Option (List Char)), i2 - k)
          else (some saveMarker, i1 - k)) = (some suggestMarker, i2 - k)
        rw [if_pos (by omega)]
      · rw [if_neg hc] at h'
        obtain ⟨hm, hi⟩ : saveMarker = m ∧ i1 = i := by simpa using h'
        subst hm; subst hi
        by_cases hk2 : k ≤ i2
        · rw [findSub_drop_some h1 hk, findSub_drop_some h2 hk2]
          show (if i2 - k < i1 - k then ((some suggestMarker : Option (List Char)), i2 - k)
            else (some saveMarker, i1 - k)) = (some saveMarker, i1 - k)
          rw [if_neg (by omega)]
        · omega

theorem findMarker_none_drop {buf : List Char} {x : Nat} (k : Nat)
    (h : findMarker buf = (none, x)) :
    findMarker (buf.drop k) = (none, buf.length - k) := by
  obtain ⟨h1, h2⟩ := findMarker_none_elim h
  rw [findMarker_eq, findSub_drop_none h1, findSub_drop_none h2]
  simp

/-! ### The directive interceptor state machine (the while-loop of `_stream_chat`) -/

/-- An interceptor output event: a passthrough text chunk (`{token: ...}`)
or a detected directive (`{tool: save_memory|suggest_memory, title, content}`,
the Bool is `is_save`). -/
inductive Ev where
  | tok : List Char → Ev
  | tool : Bool → List Char → List Char → Ev
deriving DecidableEq

/-- Interceptor state: `buf` is `tool_buffer`; `col` is `collecting_tool`
(`none` for Python `False` = scanning, `some m` = collecting a directive
opened by start marker `m`). -/
structure IState where
  buf : List Char
  col : Option (List Char)
deriving DecidableEq

def stMeasure (st : IState) : Nat :=
  2 * st.buf.length + (match st.col with | none => 1 | some _ => 0)

/-- Python `str.strip()` whitespace (ASCII part). -/
def isPySpace (c : Char) : Bool :=
  c = ' ' || c = '\t' || c = '\n' || c = '\r' || c = '\x0b' || c = '\x0c'

/-- Python `s.strip()` (ASCII whitespace). -/
def pyStrip (s : List Char) : List Char :=
  ((s.dropWhile isPySpace).reverse.dropWhile isPySpace).reverse

/-- `title.strip().replace(" ", "_").lower()` from `_stream_chat`
(ASCII lowercasing). -/
def normTitle (s : List Char) : List Char :=
  ((pyStrip s).map (fun c => if c = ' ' then '_' else c)).map Char.toLower

/-- Once the end marker is found while collecting: if the body has a `'|'`,
split at the first one into (title, content) and emit the directive event;
otherwise drop the whole span silently. -/
def directiveEvents (isSave : Bool) (callBody : List Char) : List Ev :=
  if callBody.contains '|' then
    [Ev.tool isSave (normTitle (callBody.takeWhile (fun c => c != '|')))
      (pyStrip ((callBody.dropWhile (fun c => c != '|')).drop 1))]
  else []

/-- Fuel-indexed rendering of the `while True` interception loop of
`_stream_chat`.  Each iteration strictly decreases `stMeasure`, so
`processBuf` below runs it with always-sufficient fuel. -/
def processF : Nat → IState → List Ev × IState
  | 0, st => ([], st)
  | n + 1, ⟨buf, none⟩ =>
    match findMarker buf with
    | (some m, idx) =>
      ((if 0 < idx then [Ev.tok (buf.take idx)] else []) ++
        (processF n ⟨buf.drop idx, some m⟩).1,
        (processF n ⟨buf.drop idx, some m⟩).2)
    | (none, _) =>
      if 20 < buf.length then
        ([Ev.tok (buf.take (buf.length - 20))], ⟨buf.drop (buf.length - 20), none⟩)
      else ([], ⟨buf, none⟩)
  | n + 1, ⟨buf, some m⟩ =>
    match findSub TOOL_END (buf.drop m.length) with
    | none => ([], ⟨buf, some m⟩)
    | some j =>
      (directiveEvents (decide (m = saveMarker)) ((buf.take (m.length + j)).drop m.length) ++
        (processF n ⟨buf.drop (m.length + j + TOOL_END.length), none⟩).1,
        (processF n ⟨buf.drop (m.length + j + TOOL_END.length), none⟩).2)

theorem TOOL_END_ne_nil : TOOL_END ≠ [] := by decide

theorem processF_succ_scan (n : Nat) (buf : List Char) :
    processF (n + 1) ⟨buf, none⟩ =
      match findMarker buf with
      | (some m, idx) =>
        ((if 0 < idx then [Ev.tok (buf.take idx)] else []) ++
          (processF n ⟨buf.drop idx, some m⟩).1,
          (processF n ⟨buf.drop idx, some m⟩).2)
      | (none, _) =>
        if 20 < buf.length then
          ([Ev.tok (buf.take (buf.length - 20))], ⟨buf.drop (buf.length - 20), none⟩)
        else ([], ⟨buf, none⟩) := rfl

theorem processF_succ_col (n : Nat) (buf m : List Char) :
    processF (n + 1) ⟨buf, some m⟩ =
      match findSub TOOL_END (buf.drop m.length) with
      | none => ([], ⟨buf, some m⟩)
      | some j =>
        (directiveEvents (decide (m = saveMarker))
            ((buf.take (m.length + j)).drop m.length) ++
          (processF n ⟨buf.drop (m.length + j + TOOL_END.length), none⟩).1,
          (processF n ⟨buf.drop (m.length + j + TOOL_END.length), none⟩).2) := rfl

theorem processF_scan_marker {buf m : List Char} {idx : Nat} (n : Nat)
    (hfm : findMarker buf = (some m, idx)) :
    processF (n + 1) ⟨buf, none⟩ =
      ((if 0 < idx then [Ev.tok (buf.take idx)] else []) ++
        (processF n ⟨buf.drop idx, some m⟩).1,
        (processF n ⟨buf.drop idx, some m⟩).2) := by
  rw [processF_succ_scan, hfm]

theorem processF_scan_none {buf : List Char} {x : Nat} (n : Nat)
    (hfm : findMarker buf = (none, x)) :
    processF (n + 1) ⟨buf, none⟩ =
      if 20 < buf.length then
        ([Ev.tok (buf.take (buf.length - 20))], ⟨buf.drop (buf.length - 20), none⟩)
      else ([], ⟨buf, none⟩) := by
  rw [processF_succ_scan, hfm]

theorem processF_col_none {buf m : List Char} (n : Nat)
    (hfind : findSub TOOL_END (buf.drop m.length) = none) :
    processF (n + 1) ⟨buf, some m⟩ = ([], ⟨buf, some m⟩) := by
  rw [processF_succ_col, hfind]

theorem processF_col_some {buf m : List Char} {j : Nat} (n : Nat)
    (hfind : findSub TOOL_END (buf.drop m.length) = some j) :
    processF (n + 1) ⟨buf, some m⟩ =
      (directiveEvents (decide (m = saveMarker))
          ((buf.take (m.length + j)).drop m.length) ++
        (processF n ⟨buf.drop (m.length + j + TOOL_END.length), none⟩).1,
        (processF n ⟨buf.drop (m.length + j + TOOL_END.length), none⟩).2) := by
  rw [processF_succ_col, hfind]

/-- When the end marker is found while collecting, the whole directive span
fits inside the buffer. -/
theorem endIdx_bound {buf m : List Char} {j : Nat}
    (hfind : findSub TOOL_END (buf.drop m.length) = some j) :
    m.length + j + 3 ≤ buf.length := by
  have hb := findSub_bound hfind
  rw [TOOL_END_length, List.length_drop] at hb
  by_cases hc : m.length ≤ buf.length
  · omega
  · exfalso
    have hnil : buf.drop m.length = [] := by
      apply List.drop_eq_nil_of_le ; omega
    rw [hnil] at hfind
    unfold findSub at hfind
    rw [if_neg TOOL_END_ne_nil] at hfind
    cases hfind

theorem processF_congr : ∀ (n : Nat) (st : IState), stMeasure st < n →
    processF n st = processF (stMeasure st + 1) st := by
  intro n
  induction n using Nat.strong_induction_on with
  | _ n ih =>
    intro st hst
    cases n with
    | zero => omega
    | succ n' =>
      obtain ⟨buf, col⟩ := st
      cases col with
      | none =>
        have hms : stMeasure ⟨buf, none⟩ = 2 * buf.length + 1 := rfl
        rw [hms] at hst ⊢
        cases hfm : findMarker buf with
        | mk o idx =>
          cases o with
          | none =>
            rw [processF_scan_none n' hfm, processF_scan_none (2 * buf.length + 1) hfm]
          | some m =>
            rw [processF_scan_marker n' hfm, processF_scan_marker (2 * buf.length + 1) hfm]
            have hms' : stMeasure ⟨buf.drop idx, some m⟩ = 2 * (buf.length - idx) := by
              simp [stMeasure]
            have h1 : stMeasure ⟨buf.drop idx, some m⟩ < n' := by rw [hms'] ; omega
            have h2 : stMeasure ⟨buf.drop idx, some m⟩ < 2 * buf.length + 1 := by
              rw [hms'] ; omega
            rw [ih n' (by omega) _ h1, ih (2 * buf.length + 1) (by omega) _ h2]
      | some m =>
        have hms : stMeasure ⟨buf, some m⟩ = 2 * buf.length := by simp [stMeasure]
        rw [hms] at hst ⊢
        cases hfind : findSub TOOL_END (buf.drop m.length) with
        | none =>
          rw [processF_col_none n' hfind, processF_col_none (2 * buf.length) hfind]
        | some j =>
          have hb := endIdx_bound hfind
          rw [processF_col_some n' hfind, processF_col_some (2 * buf.length) hfind]
          have hms' : stMeasure ⟨buf.drop (m.length + j + TOOL_END.length), none⟩ =
              2 * (buf.length - (m.length + j + 3)) + 1 := by
            simp [stMeasure, TOOL_END_length]
          have h1 : stMeasure ⟨buf.drop (m.length + j + TOOL_END.length), none⟩ < n' := by
            rw [hms'] ; omega
          have h2 : stMeasure ⟨buf.drop (m.length + j + TOOL_END.length), none⟩ <
              2 * buf.length := by
            rw [hms'] ; omega
          rw [ih n' (by omega) _ h1, ih (2 * buf.length) (by omega) _ h2]

/-- The interception loop of `_stream_chat`, run to completion (fuel is
always sufficient by `processF_congr`). -/
def processBuf (st : IState) : List Ev × IState := processF (stMeasure st + 1) st

theorem processBuf_scan_marker {buf m : List Char} {idx : Nat}
    (hfm : findMarker buf = (some m, idx)) :
    processBuf ⟨buf, none⟩ =
      ((if 0 < idx then [Ev.tok (buf.take idx)] else []) ++
        (processBuf ⟨buf.drop idx, some m⟩).1,
        (processBuf ⟨buf.drop idx, some m⟩).2) := by
  show processF (stMeasure ⟨buf, none⟩ + 1) ⟨buf, none⟩ = _
  rw [processF_scan_marker (stMeasure ⟨buf, none⟩) hfm]
  have h2 : stMeasure ⟨buf.drop idx, some m⟩ < stMeasure ⟨buf, none⟩ := by
    simp [stMeasure] ; omega
  rw [processF_congr (stMeasure ⟨buf, none⟩) ⟨buf.drop idx, some m⟩ h2]
  rfl

theorem processBuf_scan_none {buf : List Char} {x : Nat}
    (hfm : findMarker buf = (none, x)) :
    processBuf ⟨buf, none⟩ =
      if 20 < buf.length then
        ([Ev.tok (buf.take (buf.length - 20))], ⟨buf.drop (buf.length - 20), none⟩)
      else ([], ⟨buf, none⟩) := by
  show processF (stMeasure ⟨buf, none⟩ + 1) ⟨buf, none⟩ = _
  rw [processF_scan_none (stMeasure ⟨buf, none⟩) hfm]

theorem processBuf_col_none {buf m : List Char}
    (hfind : findSub TOOL_END (buf.drop m.length) = none) :
    processBuf ⟨buf, some m⟩ = ([], ⟨buf, some m⟩) := by
  show processF (stMeasure ⟨buf, some m⟩ + 1) ⟨buf, some m⟩ = _
  rw [processF_col_none (stMeasure ⟨buf, some m⟩) hfind]

theorem processBuf_col_some {buf m : List Char} {j : Nat}
    (hfind : findSub TOOL_END (buf.drop m.length) = some j) :
    processBuf ⟨buf, some m⟩ =
      (directiveEvents (decide (m = saveMarker))
          ((buf.take (m.length + j)).drop m.length) ++
        (processBuf ⟨buf.drop (m.length + j + TOOL_END.length), none⟩).1,
        (processBuf ⟨buf.drop (m.length + j + TOOL_END.length), none⟩).2) := by
  show processF (stMeasure ⟨buf, some m⟩ + 1) ⟨buf, some m⟩ = _
  rw [processF_col_some (stMeasure ⟨buf, some m⟩) hfind]
  have hb := endIdx_bound hfind
  have h2 : stMeasure ⟨buf.drop (m.length + j + TOOL_END.length), none⟩ <
      stMeasure ⟨buf, some m⟩ := by
    simp [stMeasure, TOOL_END_length]
    omega
  rw [processF_congr (stMeasure ⟨buf, some m⟩) _ h2]
  rfl


/-- Feed one streamed token: append it to `tool_buffer` and run the loop. -/
def feed (st : IState) (tok : List Char) : List Ev × IState :=
  processBuf ⟨st.buf ++ tok, st.col⟩

/-- Feed a list of tokens in order, concatenating the emitted events. -/
def feedMany (st : IState) : List (List Char) → List Ev × IState
  | [] => ([], st)
  | t :: ts =>
    ((feed st t).1 ++ (feedMany (feed st t).2 ts).1, (feedMany (feed st t).2 ts).2)

/-- End-of-stream handling (`chunk.get("done")`): flush `tool_buffer` as a
final token only when it is non-empty and the loop is not collecting. -/
def finish (st : IState) : List Ev :=
  match st.col with
  | none => if st.buf.isEmpty then [] else [Ev.tok st.buf]
  | some _ => []

/-- All interceptor events for a streamed token sequence terminated by the
end-of-stream signal. -/
def runInterceptor (toks : List (List Char)) : List Ev :=
  (feedMany ⟨[], none⟩ toks).1 ++ finish (feedMany ⟨[], none⟩ toks).2

/-- Concatenated passthrough text of an event list. -/
def passOf (evs : List Ev) : List Char :=
  (evs.filterMap (fun e => match e with | Ev.tok s => some s | _ => none)).join

/-- The directive events of an event list, in order. -/
def dirsOf (evs : List Ev) : List (Bool × List Char × List Char) :=
  evs.filterMap (fun e => match e with | Ev.tool b t c => some (b, t, c) | _ => none)

@[simp] theorem passOf_nil : passOf [] = [] := rfl

@[simp] theorem passOf_append (a b : List Ev) :
    passOf (a ++ b) = passOf a ++ passOf b := by
  simp [passOf, List.filterMap_append]

@[simp] theorem passOf_cons_tok (s : List Char) (evs : List Ev) :
    passOf (Ev.tok s :: evs) = s ++ passOf evs := by
  simp [passOf]

@[simp] theorem passOf_cons_tool (b : Bool) (x y : List Char) (evs : List Ev) :
    passOf (Ev.tool b x y :: evs) = passOf evs := by
  simp [passOf]

@[simp] theorem dirsOf_nil : dirsOf [] = [] := rfl

@[simp] theorem dirsOf_append (a b : List Ev) :
    dirsOf (a ++ b) = dirsOf a ++ dirsOf b := by
  simp [dirsOf, List.filterMap_append]

@[simp] theorem dirsOf_cons_tok (s : List Char) (evs : List Ev) :
    dirsOf (Ev.tok s :: evs) = dirsOf evs := by
  simp [dirsOf]

@[simp] theorem dirsOf_cons_tool (b : Bool) (x y : List Char) (evs : List Ev) :
    dirsOf (Ev.tool b x y :: evs) = (b, x, y) :: dirsOf evs := by
  simp [dirsOf]

@[simp] theorem passOf_flushEv (c : Prop) [Decidable c] (s : List Char) :
    passOf (if c then [Ev.tok s] else []) = if c then s else [] := by
  split <;> simp

@[simp] theorem dirsOf_flushEv (c : Prop) [Decidable c] (s : List Char) :
    dirsOf (if c then [Ev.tok s] else []) = [] := by
  split <;> simp

@[simp] theorem passOf_directiveEvents (b : Bool) (s : List Char) :
    passOf (directiveEvents b s) = [] := by
  unfold directiveEvents
  split <;> simp

/-- Splitting a `take` of an appended list at a point inside the left part. -/
theorem take_glue {buf t : List Char} {k a b : Nat} (hk : k ≤ buf.length)
    (hab : k + b = a) :
    (buf ++ t).take a = buf.take k ++ ((buf ++ t).drop k).take b := by
  rw [← List.take_append_of_le_length hk, ← hab, List.take_add]

/-- Chunk-boundary independence, one step: running the loop on `buf ++ t`
yields the same final state, the same directive events and the same
concatenated passthrough text as running it on `buf` and then feeding `t`. -/
theorem feed_comp : ∀ (n : Nat) (buf : List Char) (col : Option (List Char)) (t : List Char),
    stMeasure ⟨buf, col⟩ < n →
    (processBuf ⟨buf ++ t, col⟩).2 = (feed (processBuf ⟨buf, col⟩).2 t).2 ∧
    dirsOf (processBuf ⟨buf ++ t, col⟩).1 =
      dirsOf (processBuf ⟨buf, col⟩).1 ++ dirsOf (feed (processBuf ⟨buf, col⟩).2 t).1 ∧
    passOf (processBuf ⟨buf ++ t, col⟩).1 =
      passOf (processBuf ⟨buf, col⟩).1 ++ passOf (feed (processBuf ⟨buf, col⟩).2 t).1 := by
  intro n
  induction n using Nat.strong_induction_on with
  | _ n ih =>
    intro buf col t hn
    cases col with
    | none =>
      cases hfm : findMarker buf with
      | mk o x =>
        cases o with
        | some m =>
          obtain ⟨hfsub, hmem⟩ := findMarker_some_findSub hfm
          have hxb := findSub_bound hfsub
          have hxle : x ≤ buf.length := by
            have : 0 < m.length := by
              rcases hmem with hm1 | hm2
              · rw [hm1, saveMarker_length] ; omega
              · rw [hm2, suggestMarker_length] ; omega
            omega
          have hfm' : findMarker (buf ++ t) = (some m, x) := findMarker_append hfm
          rw [processBuf_scan_marker hfm, processBuf_scan_marker hfm']
          rw [List.take_append_of_le_length hxle, List.drop_append_of_le_length hxle]
          have hlt : stMeasure ⟨buf.drop x, some m⟩ < stMeasure ⟨buf, none⟩ := by
            simp [stMeasure] ; omega
          obtain ⟨ihs, ihd, ihp⟩ :=
            ih (stMeasure ⟨buf.drop x, some m⟩ + 1) (by omega) (buf.drop x) (some m) t (by omega)
          refine ⟨by simpa using ihs, ?_, ?_⟩
          · simp only [Prod.fst]
            simp [ihd, List.append_assoc]
          · simp only [Prod.fst]
            simp [ihp, List.append_assoc]
        | none =>
          by_cases h20 : 20 < buf.length
          · obtain ⟨h1n, h2n⟩ := findMarker_none_elim hfm
            have hk : buf.length - 20 ≤ buf.length := by omega
            rw [processBuf_scan_none hfm, if_pos h20]
            have hdk : buf.drop (buf.length - 20) ++ t = (buf ++ t).drop (buf.length - 20) :=
              (List.drop_append_of_le_length hk).symm
            have htk : (buf ++ t).take (buf.length - 20) = buf.take (buf.length - 20) :=
              List.take_append_of_le_length hk
            cases hfm' : findMarker (buf ++ t) with
            | mk o' v =>
              cases o' with
              | some m =>
                obtain ⟨hfsub', hmem'⟩ := findMarker_some_findSub hfm'
                have hvlen : buf.length < v + 18 := by
                  rcases hmem' with hm1 | hm2
                  · have hnew := findSub_new_occurrence h1n (hm1 ▸ hfsub')
                    rw [saveMarker_length] at hnew ; omega
                  · have hnew := findSub_new_occurrence h2n (hm2 ▸ hfsub')
                    rw [suggestMarker_length] at hnew ; omega
                have hvk : buf.length - 20 < v := by omega
                have hv0 : 0 < v := by omega
                rw [processBuf_scan_marker hfm', if_pos hv0]
                simp only [feed]
                rw [hdk]
                have hfmk : findMarker ((buf ++ t).drop (buf.length - 20)) =
                    (some m, v - (buf.length - 20)) := findMarker_drop hfm' (by omega)
                rw [processBuf_scan_marker hfmk, if_pos (by omega : 0 < v - (buf.length - 20))]
                have hkv : buf.length - 20 + (v - (buf.length - 20)) = v := by omega
                have hZY : ((buf ++ t).drop (buf.length - 20)).drop (v - (buf.length - 20))
                    = (buf ++ t).drop v := by
                  rw [List.drop_drop, hkv]
                rw [hZY]
                have hpass : (buf ++ t).take v = buf.take (buf.length - 20) ++
                    ((buf ++ t).drop (buf.length - 20)).take (v - (buf.length - 20)) := by
                  rw [← htk]
                  conv_lhs => rw [← hkv]
                  rw [List.take_add]
                refine ⟨by simp, by simp, ?_⟩
                simp [hpass, List.append_assoc]
              | none =>
                have hL : 20 < (buf ++ t).length := by
                  rw [List.length_append] ; omega
                rw [processBuf_scan_none hfm', if_pos hL]
                simp only [feed]
                rw [hdk]
                have hfmk := findMarker_none_drop (buf.length - 20) hfm'
                rw [processBuf_scan_none hfmk]
                by_cases ht : 0 < t.length
                · have h20' : 20 < ((buf ++ t).drop (buf.length - 20)).length := by
                    rw [List.length_drop, List.length_append] ; omega
                  rw [if_pos h20']
                  have hdlen : ((buf ++ t).drop (buf.length - 20)).length - 20 =
                      (buf ++ t).length - 20 - (buf.length - 20) := by
                    rw [List.length_drop] ; omega
                  have hsum : buf.length - 20 + ((buf ++ t).length - 20 - (buf.length - 20)) =
                      (buf ++ t).length - 20 := by
                    rw [List.length_append] ; omega
                  have hst : ((buf ++ t).drop (buf.length - 20)).drop
                      (((buf ++ t).drop (buf.length - 20)).length - 20)
                      = (buf ++ t).drop ((buf ++ t).length - 20) := by
                    rw [List.drop_drop, hdlen, hsum]
                  refine ⟨?_, by simp, ?_⟩
                  · simp
                    congr 1
                    omega
                  · simp
                    exact take_glue hk (by omega)
                · have ht0 : t = [] := by
                    cases t with
                    | nil => rfl
                    | cons a as => simp at ht
                  subst ht0
                  have h20n : ¬ 20 < ((buf ++ ([] : List Char)).drop (buf.length - 20)).length := by
                    rw [List.length_drop, List.length_append] ; omega
                  rw [if_neg h20n]
                  refine ⟨by simp, by simp, by simp⟩
          · rw [processBuf_scan_none hfm, if_neg h20]
            simp [feed]
    | some m =>
      cases hfind : findSub TOOL_END (buf.drop m.length) with
      | none =>
        rw [processBuf_col_none hfind]
        simp [feed]
      | some j =>
        have hb := endIdx_bound hfind
        have hmle : m.length ≤ buf.length := by omega
        have hfind' : findSub TOOL_END ((buf ++ t).drop m.length) = some j := by
          rw [List.drop_append_of_le_length hmle]
          exact findSub_append hfind
        rw [processBuf_col_some hfind, processBuf_col_some hfind']
        have hteq : m.length + j + TOOL_END.length ≤ buf.length := by
          rw [TOOL_END_length] ; omega
        have htake : (buf ++ t).take (m.length + j) = buf.take (m.length + j) :=
          List.take_append_of_le_length (by omega)
        have hdrop : (buf ++ t).drop (m.length + j + TOOL_END.length)
            = buf.drop (m.length + j + TOOL_END.length) ++ t :=
          List.drop_append_of_le_length hteq
        rw [htake, hdrop]
        have hlt : stMeasure ⟨buf.drop (m.length + j + TOOL_END.length), none⟩ <
            stMeasure ⟨buf, some m⟩ := by
          simp [stMeasure, TOOL_END_length] ; omega
        obtain ⟨ihs, ihd, ihp⟩ :=
          ih (stMeasure ⟨buf.drop (m.length + j + TOOL_END.length), none⟩ + 1) (by omega)
            (buf.drop (m.length + j + TOOL_END.length)) none t (by omega)
        refine ⟨by simpa using ihs, ?_, ?_⟩
        · simp [ihd, List.append_assoc]
        · simp [ihp, List.append_assoc]

theorem feedMany_comp : ∀ (toks : List (List Char)) (buf : List Char) (col : Option (List Char)),
    (feedMany (processBuf ⟨buf, col⟩).2 toks).2 = (processBuf ⟨buf ++ toks.join, col⟩).2 ∧
    dirsOf (processBuf ⟨buf ++ toks.join, col⟩).1 =
      dirsOf (processBuf ⟨buf, col⟩).1 ++ dirsOf (feedMany (processBuf ⟨buf, col⟩).2 toks).1 ∧
    passOf (processBuf ⟨buf ++ toks.join, col⟩).1 =
      passOf (processBuf ⟨buf, col⟩).1 ++ passOf (feedMany (processBuf ⟨buf, col⟩).2 toks).1 := by
  intro toks
  induction toks with
  | nil =>
    intro buf col
    simp [feedMany]
  | cons t ts ih =>
    intro buf col
    obtain ⟨fs, fd, fp⟩ := feed_comp (stMeasure ⟨buf, col⟩ + 1) buf col t (by omega)
    obtain ⟨is2, id2, ip2⟩ := ih (buf ++ t) col
    have hjoin : buf ++ (t :: ts).join = (buf ++ t) ++ ts.join := by
      simp [List.append_assoc]
    refine ⟨?_, ?_, ?_⟩
    · simp only [feedMany]
      rw [← fs, is2, hjoin]
    · simp only [feedMany, dirsOf_append]
      rw [hjoin, id2, fd, ← fs, List.append_assoc]
    · simp only [feedMany, passOf_append]
      rw [hjoin, ip2, fp, ← fs, List.append_assoc]

/-- The batch run of the interceptor: the entire reply delivered as one
fragment, then end-of-stream. -/
def runSingle (s : List Char) : List Ev :=
  (processBuf ⟨s, none⟩).1 ++ finish (processBuf ⟨s, none⟩).2

theorem processBuf_nil_scan : processBuf ⟨[], none⟩ = ([], ⟨[], none⟩) := rfl

/-- Full token-boundary independence: the interceptor's directive events and
concatenated passthrough depend only on the concatenation of the fragments. -/
theorem runInterceptor_join (toks : List (List Char)) :
    dirsOf (runInterceptor toks) = dirsOf (runSingle toks.join) ∧
    passOf (runInterceptor toks) = passOf (runSingle toks.join) := by
  obtain ⟨hs, hd, hp⟩ := feedMany_comp toks [] none
  rw [processBuf_nil_scan] at hs hd hp
  simp only [List.nil_append] at hs hd hp
  have hfin : finish (feedMany ⟨[], none⟩ toks).2 = finish (processBuf ⟨toks.join, none⟩).2 := by
    rw [hs]
  constructor
  · show dirsOf ((feedMany ⟨[], none⟩ toks).1 ++ finish (feedMany ⟨[], none⟩ toks).2) = _
    rw [dirsOf_append, hfin]
    unfold runSingle
    rw [dirsOf_append, hd]
    simp
  · show passOf ((feedMany ⟨[], none⟩ toks).1 ++ finish (feedMany ⟨[], none⟩ toks).2) = _
    rw [passOf_append, hfin]
    unfold runSingle
    rw [passOf_append, hp]
    simp

theorem findMarker_min {buf m m' : List Char} {i v : Nat}
    (h : findMarker buf = (some m, i)) (hm' : m' = saveMarker ∨ m' = suggestMarker)
    (hv : findSub m' buf = some v) : i ≤ v := by
  rw [findMarker_eq] at h
  rcases hm' with rfl | rfl
  · rw [hv] at h
    cases h2 : findSub suggestMarker buf with
    | none =>
      rw [h2] at h
      have h' : ((some saveMarker : Option (List Char)), v) = (some m, i) := h
      obtain ⟨-, hi⟩ : saveMarker = m ∧ v = i := by simpa using h'
      omega
    | some j =>
      rw [h2] at h
      have h' : (if j < v then ((some suggestMarker : Option (List Char)), j)
        else (some saveMarker, v)) = (some m, i) := h
      by_cases hc : j < v
      · rw [if_pos hc] at h'
        obtain ⟨-, hi⟩ : suggestMarker = m ∧ j = i := by simpa using h'
        omega
      · rw [if_neg hc] at h'
        obtain ⟨-, hi⟩ : saveMarker = m ∧ v = i := by simpa using h'
        omega
  · rw [hv] at h
    cases h1 : findSub saveMarker buf with
    | none =>
      rw [h1] at h
      have h' : ((some suggestMarker : Option (List Char)), v) = (some m, i) := h
      obtain ⟨-, hi⟩ : suggestMarker = m ∧ v = i := by simpa using h'
      omega
    | some j =>
      rw [h1] at h
      have h' : (if v < j then ((some suggestMarker : Option (List Char)), v)
        else (some saveMarker, j)) = (some m, i) := h
      by_cases hc : v < j
      · rw [if_pos hc] at h'
        obtain ⟨-, hi⟩ : suggestMarker = m ∧ v = i := by simpa using h'
        omega
      · rw [if_neg hc] at h'
        obtain ⟨-, hi⟩ : saveMarker = m ∧ j = i := by simpa using h'
        omega

theorem findSub_take_none {pat s : List Char} (h : findSub pat s = none) (k : Nat) :
    findSub pat (s.take k) = none := by
  cases hfs : findSub pat (s.take k) with
  | none => rfl
  | some v =>
    exfalso
    have hpre := findSub_prefix hfs
    have hsub : (s.take k).drop v <+: s.drop v := by
      rw [List.drop_take]
      exact List.take_prefix _ _
    exact absurd (hpre.trans hsub) (findSub_none h v)

/-- The prefix flushed before a found marker contains no marker occurrence. -/
theorem flush_prefix_noMarker {buf m m' : List Char} {i : Nat}
    (hfm : findMarker buf = (some m, i)) (hm' : m' = saveMarker ∨ m' = suggestMarker) :
    findSub m' (buf.take i) = none := by
  cases hfs : findSub m' (buf.take i) with
  | none => rfl
  | some v =>
    exfalso
    have hb := findSub_bound hfs
    rw [List.length_take] at hb
    have hm'len : 0 < m'.length := by
      rcases hm' with rfl | rfl
      · rw [saveMarker_length] ; omega
      · rw [suggestMarker_length] ; omega
    have hvi : v + m'.length ≤ i := by omega
    have hpre : m' <+: buf.drop v := by
      have h1 := findSub_prefix hfs
      have hsub : (buf.take i).drop v <+: buf.drop v := by
        rw [List.drop_take]
        exact List.take_prefix _ _
      exact h1.trans hsub
    obtain ⟨w, hw, hwv⟩ := findSub_isSome_of_prefix hpre
    have := findMarker_min hfm hm' hw
    omega

/-- Every passthrough chunk the loop emits is free of start markers. -/
theorem processBuf_tok_noMarker : ∀ (n : Nat) (st : IState), stMeasure st < n →
    ∀ s, Ev.tok s ∈ (processBuf st).1 →
      findSub saveMarker s = none ∧ findSub suggestMarker s = none := by
  intro n
  induction n using Nat.strong_induction_on with
  | _ n ih =>
    intro st hn s hs
    obtain ⟨buf, col⟩ := st
    cases col with
    | none =>
      cases hfm : findMarker buf with
      | mk o x =>
        cases o with
        | some m =>
          rw [processBuf_scan_marker hfm] at hs
          simp only [List.mem_append] at hs
          rcases hs with hs | hs
          · have hsx : s = buf.take x := by
              by_cases hx : 0 < x
              · rw [if_pos hx] at hs ; simpa using hs
              · rw [if_neg hx] at hs ; simp at hs
            subst hsx
            exact ⟨flush_prefix_noMarker hfm (Or.inl rfl),
              flush_prefix_noMarker hfm (Or.inr rfl)⟩
          · have hlt : stMeasure ⟨buf.drop x, some m⟩ < stMeasure ⟨buf, none⟩ := by
              simp [stMeasure] ; omega
            exact ih (stMeasure ⟨buf.drop x, some m⟩ + 1) (by omega)
              ⟨buf.drop x, some m⟩ (by omega) s hs
        | none =>
          obtain ⟨h1n, h2n⟩ := findMarker_none_elim hfm
          rw [processBuf_scan_none hfm] at hs
          by_cases h20 : 20 < buf.length
          · rw [if_pos h20] at hs
            simp at hs
            subst hs
            exact ⟨findSub_take_none h1n _, findSub_take_none h2n _⟩
          · rw [if_neg h20] at hs
            simp at hs
    | some m =>
      cases hfind : findSub TOOL_END (buf.drop m.length) with
      | none =>
        rw [processBuf_col_none hfind] at hs
        simp at hs
      | some j =>
        rw [processBuf_col_some hfind] at hs
        simp only [List.mem_append] at hs
        rcases hs with hs | hs
        · exfalso
          unfold directiveEvents at hs
          split at hs <;> simp at hs
        · have hb := endIdx_bound hfind
          have hlt : stMeasure ⟨buf.drop (m.length + j + TOOL_END.length), none⟩ <
              stMeasure ⟨buf, some m⟩ := by
            simp [stMeasure, TOOL_END_length] ; omega
          exact ih (stMeasure ⟨buf.drop (m.length + j + TOOL_END.length), none⟩ + 1)
            (by omega) ⟨buf.drop (m.length + j + TOOL_END.length), none⟩ (by omega) s hs

/-- If the loop ends in scanning mode, the withheld buffer has at most 20
characters and contains no start marker. -/
theorem processBuf_scan_state : ∀ (n : Nat) (st : IState), stMeasure st < n →
    ∀ b, (processBuf st).2 = ⟨b, none⟩ →
      b.length ≤ 20 ∧ findSub saveMarker b = none ∧ findSub suggestMarker b = none := by
  intro n
  induction n using Nat.strong_induction_on with
  | _ n ih =>
    intro st hn b hb
    obtain ⟨buf, col⟩ := st
    cases col with
    | none =>
      cases hfm : findMarker buf with
      | mk o x =>
        cases o with
        | some m =>
          rw [processBuf_scan_marker hfm] at hb
          have hlt : stMeasure ⟨buf.drop x, some m⟩ < stMeasure ⟨buf, none⟩ := by
            simp [stMeasure] ; omega
          exact ih (stMeasure ⟨buf.drop x, some m⟩ + 1) (by omega)
            ⟨buf.drop x, some m⟩ (by omega) b (by simpa using hb)
        | none =>
          obtain ⟨h1n, h2n⟩ := findMarker_none_elim hfm
          rw [processBuf_scan_none hfm] at hb
          by_cases h20 : 20 < buf.length
          · rw [if_pos h20] at hb
            have hb' : buf.drop (buf.length - 20) = b := by
              have : (⟨buf.drop (buf.length - 20), none⟩ : IState) = ⟨b, none⟩ := by
                simpa using hb
              simpa using this
            subst hb'
            refine ⟨by rw [List.length_drop] ; omega,
              findSub_drop_none h1n _, findSub_drop_none h2n _⟩
          · rw [if_neg h20] at hb
            have hb' : buf = b := by
              have : (⟨buf, none⟩ : IState) = ⟨b, none⟩ := by simpa using hb
              simpa using this
            subst hb'
            exact ⟨by omega, h1n, h2n⟩
    | some m =>
      cases hfind : findSub TOOL_END (buf.drop m.length) with
      | none =>
        rw [processBuf_col_none hfind] at hb
        exfalso
        have : (⟨buf, some m⟩ : IState) = ⟨b, none⟩ := by simpa using hb
        simp at this
      | some j =>
        rw [processBuf_col_some hfind] at hb
        have hbnd := endIdx_bound hfind
        have hlt : stMeasure ⟨buf.drop (m.length + j + TOOL_END.length), none⟩ <
            stMeasure ⟨buf, some m⟩ := by
          simp [stMeasure, TOOL_END_length] ; omega
        exact ih (stMeasure ⟨buf.drop (m.length + j + TOOL_END.length), none⟩ + 1)
          (by omega) ⟨buf.drop (m.length + j + TOOL_END.length), none⟩ (by omega) b
          (by simpa using hb)

theorem feedMany_tok (toks : List (List Char)) : ∀ (st : IState) (s : List Char),
    Ev.tok s ∈ (feedMany st toks).1 → ∃ st', Ev.tok s ∈ (processBuf st').1 := by
  induction toks with
  | nil => intro st s hs ; simp [feedMany] at hs
  | cons t ts ih =>
    intro st s hs
    simp only [feedMany, List.mem_append] at hs
    rcases hs with hs | hs
    · exact ⟨⟨st.buf ++ t, st.col⟩, hs⟩
    · exact ih (feed st t).2 s hs

theorem feedMany_state (toks : List (List Char)) : ∀ (st : IState),
    (feedMany st toks).2 = st ∨ ∃ st', (feedMany st toks).2 = (processBuf st').2 := by
  induction toks with
  | nil => intro st ; left ; rfl
  | cons t ts ih =>
    intro st
    rcases ih (feed st t).2 with h | ⟨st', h⟩
    · right
      refine ⟨⟨st.buf ++ t, st.col⟩, ?_⟩
      show (feedMany (feed st t).2 ts).2 = _
      rw [h]
      rfl
    · right
      exact ⟨st', h⟩

/-- No passthrough event of a complete run contains a start marker. -/
theorem runInterceptor_tok_noMarker (toks : List (List Char)) :
    ∀ s, Ev.tok s ∈ runInterceptor toks →
      findSub saveMarker s = none ∧ findSub suggestMarker s = none := by
  intro s hs
  unfold runInterceptor at hs
  rw [List.mem_append] at hs
  rcases hs with hs | hs
  · obtain ⟨st', hst'⟩ := feedMany_tok toks ⟨[], none⟩ s hs
    exact processBuf_tok_noMarker (stMeasure st' + 1) st' (by omega) s hst'
  · rcases feedMany_state toks ⟨[], none⟩ with h | ⟨st', h⟩
    · rw [h] at hs
      simp [finish] at hs
    · rw [h] at hs
      cases hcol : (processBuf st').2 with
      | mk b col =>
        cases col with
        | none =>
          obtain ⟨hlen, h1, h2⟩ :=
            processBuf_scan_state (stMeasure st' + 1) st' (by omega) b hcol
          rw [hcol] at hs
          by_cases hbe : b.isEmpty
          · simp [finish, hbe] at hs
          · simp [finish, hbe] at hs
            subst hs
            exact ⟨h1, h2⟩
        | some mm =>
          rw [hcol] at hs
          simp [finish] at hs

/-! ### Reference removal of directive spans (spec §4.1) -/

/-- Reference description, following the spec's wording, of the user-visible
remainder of a reply: text before the earliest start marker is kept; from
the marker on, everything through the next `>>>` (searched from the end of
the start marker) is a directive span and is removed, with scanning resuming
after it; a trailing unterminated directive is discarded entirely. -/
def stripSpecF : Nat → List Char → List Char
  | 0, _ => []
  | fuel + 1, s =>
    match findMarker s with
    | (none, _) => s
    | (some m, i) =>
      s.take i ++
        match findSub TOOL_END (s.drop (i + m.length)) with
        | none => []
        | some j => stripSpecF fuel (s.drop (i + m.length + j + TOOL_END.length))

def stripSpec (s : List Char) : List Char := stripSpecF (s.length + 1) s

theorem stripSpecF_succ (n : Nat) (s : List Char) :
    stripSpecF (n + 1) s =
      match findMarker s with
      | (none, _) => s
      | (some m, i) =>
        s.take i ++
          match findSub TOOL_END (s.drop (i + m.length)) with
          | none => []
          | some j => stripSpecF n (s.drop (i + m.length + j + TOOL_END.length)) := rfl

theorem stripSpecF_none {s : List Char} {x : Nat} (n : Nat)
    (h : findMarker s = (none, x)) : stripSpecF (n + 1) s = s := by
  rw [stripSpecF_succ, h]

theorem stripSpecF_marker_noEnd {s m : List Char} {i : Nat} (n : Nat)
    (hm : findMarker s = (some m, i))
    (he : findSub TOOL_END (s.drop (i + m.length)) = none) :
    stripSpecF (n + 1) s = s.take i := by
  rw [stripSpecF_succ, hm]
  show s.take i ++ (match findSub TOOL_END (s.drop (i + m.length)) with
    | none => ([] : List Char)
    | some j => stripSpecF n (s.drop (i + m.length + j + TOOL_END.length))) = _
  rw [he]
  simp

theorem stripSpecF_marker_end {s m : List Char} {i j : Nat} (n : Nat)
    (hm : findMarker s = (some m, i))
    (he : findSub TOOL_END (s.drop (i + m.length)) = some j) :
    stripSpecF (n + 1) s =
      s.take i ++ stripSpecF n (s.drop (i + m.length + j + TOOL_END.length)) := by
  rw [stripSpecF_succ, hm]
  show s.take i ++ (match findSub TOOL_END (s.drop (i + m.length)) with
    | none => ([] : List Char)
    | some j => stripSpecF n (s.drop (i + m.length + j + TOOL_END.length))) = _
  rw [he]

/-- A found marker has positive length (it is one of the two markers). -/
theorem marker_pos {buf m : List Char} {i : Nat}
    (h : findMarker buf = (some m, i)) : 15 ≤ m.length := by
  obtain ⟨-, hmem⟩ := findMarker_some_findSub h
  rcases hmem with rfl | rfl
  · rw [saveMarker_length]
  · rw [suggestMarker_length] ; omega

/-- The bounds of a complete directive span found by the reference parse. -/
theorem stripSpan_bound {s m : List Char} {i j : Nat}
    (hm : findMarker s = (some m, i))
    (he : findSub TOOL_END (s.drop (i + m.length)) = some j) :
    i + m.length + j + 3 ≤ s.length ∧ 15 ≤ m.length := by
  obtain ⟨hfsub, -⟩ := findMarker_some_findSub hm
  have h1 := findSub_bound hfsub
  have h2 := findSub_bound he
  rw [TOOL_END_length, List.length_drop] at h2
  exact ⟨by omega, marker_pos hm⟩

theorem stripSpecF_congr : ∀ (n : Nat) (s : List Char), s.length < n →
    stripSpecF n s = stripSpecF (s.length + 1) s := by
  intro n
  induction n using Nat.strong_induction_on with
  | _ n ih =>
    intro s hn
    cases n with
    | zero => omega
    | succ n' =>
      cases hfm : findMarker s with
      | mk o i =>
        cases o with
        | none => rw [stripSpecF_none n' hfm, stripSpecF_none s.length hfm]
        | some m =>
          cases hfind : findSub TOOL_END (s.drop (i + m.length)) with
          | none =>
            rw [stripSpecF_marker_noEnd n' hfm hfind,
              stripSpecF_marker_noEnd s.length hfm hfind]
          | some j =>
            obtain ⟨hbd, hml⟩ := stripSpan_bound hfm hfind
            rw [stripSpecF_marker_end n' hfm hfind,
              stripSpecF_marker_end s.length hfm hfind]
            have hlen : (s.drop (i + m.length + j + TOOL_END.length)).length < s.length := by
              rw [List.length_drop, TOOL_END_length] ; omega
            rw [ih n' (by omega) _ (by omega), ih s.length (by omega) _ hlen]

theorem stripSpec_none {s : List Char} {x : Nat}
    (h : findMarker s = (none, x)) : stripSpec s = s :=
  stripSpecF_none s.length h

theorem stripSpec_marker_noEnd {s m : List Char} {i : Nat}
    (hm : findMarker s = (some m, i))
    (he : findSub TOOL_END (s.drop (i + m.length)) = none) :
    stripSpec s = s.take i :=
  stripSpecF_marker_noEnd s.length hm he

theorem stripSpec_marker_end {s m : List Char} {i j : Nat}
    (hm : findMarker s = (some m, i))
    (he : findSub TOOL_END (s.drop (i + m.length)) = some j) :
    stripSpec s =
      s.take i ++ stripSpec (s.drop (i + m.length + j + TOOL_END.length)) := by
  obtain ⟨hbd, hml⟩ := stripSpan_bound hm he
  have hlen : (s.drop (i + m.length + j + TOOL_END.length)).length < s.length := by
    rw [List.length_drop, TOOL_END_length] ; omega
  unfold stripSpec
  rw [stripSpecF_marker_end s.length hm he, stripSpecF_congr s.length _ hlen]

/-- The concatenated passthrough of a batch run is exactly the input with
all directive spans (start marker, body, end marker) removed. -/
theorem passOf_runSingle_aux : ∀ (n : Nat) (s : List Char), s.length < n →
    passOf (runSingle s) = stripSpec s := by
  intro n
  induction n using Nat.strong_induction_on with
  | _ n ih =>
    intro s hn
    unfold runSingle
    cases hfm : findMarker s with
    | mk o i =>
      cases o with
      | none =>
        rw [stripSpec_none hfm, processBuf_scan_none hfm]
        by_cases h20 : 20 < s.length
        · rw [if_pos h20]
          have hne : s.drop (s.length - 20) ≠ [] := by
            intro hnil
            have := congrArg List.length hnil
            rw [List.length_drop] at this
            simp at this
            omega
          simp [finish, List.isEmpty_iff, hne]
        · rw [if_neg h20]
          by_cases hse : s = []
          · simp [finish, List.isEmpty_iff, hse]
          · simp [finish, List.isEmpty_iff, hse]
      | some m =>
        obtain ⟨hfsub, hmem⟩ := findMarker_some_findSub hfm
        have hib := findSub_bound hfsub
        rw [processBuf_scan_marker hfm]
        have hdd : (s.drop i).drop m.length = s.drop (i + m.length) := by
          rw [List.drop_drop]
        cases hfind : findSub TOOL_END (s.drop (i + m.length)) with
        | none =>
          have hfind' : findSub TOOL_END ((s.drop i).drop m.length) = none := by
            rw [hdd] ; exact hfind
          rw [stripSpec_marker_noEnd hfm hfind, processBuf_col_none hfind']
          simp [finish]
          exact fun h => Or.inl h
        | some j =>
          have hfind' : findSub TOOL_END ((s.drop i).drop m.length) = some j := by
            rw [hdd] ; exact hfind
          obtain ⟨hbd, hml⟩ := stripSpan_bound hfm hfind
          rw [stripSpec_marker_end hfm hfind, processBuf_col_some hfind']
          have harw : (s.drop i).drop (m.length + j + TOOL_END.length)
              = s.drop (i + m.length + j + TOOL_END.length) := by
            rw [List.drop_drop]
            congr 1
            omega
          rw [harw]
          have hlen : (s.drop (i + m.length + j + TOOL_END.length)).length < s.length := by
            rw [List.length_drop, TOOL_END_length] ; omega
          have ihs := ih (s.length) (by omega)
            (s.drop (i + m.length + j + TOOL_END.length)) hlen
          unfold runSingle at ihs
          rw [passOf_append] at ihs
          simp only [passOf_append, passOf_directiveEvents, passOf_flushEv]
          rw [← ihs]
          by_cases hi : 0 < i
          · simp [hi, List.append_assoc]
          · simp [hi]
            have : i = 0 := by omega
            simp [this]

@[simp] theorem dirsOf_finish (st : IState) : dirsOf (finish st) = [] := by
  obtain ⟨b, col⟩ := st
  cases col with
  | none =>
    show dirsOf (if b.isEmpty then [] else [Ev.tok b]) = []
    split <;> simp
  | some m => rfl

/-! ### Claim theorems for the directive interceptor -/

/-- Claim C1: for every token sequence and chunking, no start marker occurs
inside any emitted passthrough (`{token: ...}`) event, and the concatenated
passthrough text equals the input with every directive span (start marker,
body, end marker — and any trailing unterminated directive) removed, so no
directive body or terminator reaches passthrough either. -/
theorem C1_no_directive_leak (toks : List (List Char)) :
    (∀ s, Ev.tok s ∈ runInterceptor toks →
      findSub saveMarker s = none ∧ findSub suggestMarker s = none) ∧
    passOf (runInterceptor toks) = stripSpec toks.join := by
  refine ⟨runInterceptor_tok_noMarker toks, ?_⟩
  rw [(runInterceptor_join toks).2]
  exact passOf_runSingle_aux (toks.join.length + 1) toks.join (by omega)

theorem C1_no_directive_leak_witness :
    passOf (runInterceptor ["Hi! <<<SA".data, "VE_MEMORY:tea|likes tea>>>".data, " Bye".data])
      = "Hi!  Bye".data :=
  ((C1_no_directive_leak ["Hi! <<<SA".data, "VE_MEMORY:tea|likes tea>>>".data, " Bye".data]).2).trans
    (by decide)

/-- Claim C2 counterexample: a single 18-character marker-free fragment
leaves the interceptor in scanning mode with all 18 characters withheld,
exceeding the claimed bound of maxMarkerLength − 1 = 17. -/
theorem C2_counterexample :
    (feedMany ⟨[], none⟩ ["aaaaaaaaaaaaaaaaaa".data]).2 =
      ⟨"aaaaaaaaaaaaaaaaaa".data, none⟩ ∧
    17 < ("aaaaaaaaaaaaaaaaaa".data).length := by
  constructor
  · decide
  · decide

/-- Claim C2 (amended): while the interceptor is in scanning mode after
processing any sequence of fragments, at most 20 characters are withheld
(the code keeps `tool_buffer[-20:]`, not `maxMarkerLength − 1 = 17`). -/
theorem C2_amended_scan_buffer_bound (toks : List (List Char)) (b : List Char)
    (h : (feedMany ⟨[], none⟩ toks).2 = ⟨b, none⟩) : b.length ≤ 20 := by
  rcases feedMany_state toks ⟨[], none⟩ with heq | ⟨st', heq⟩
  · rw [heq] at h
    cases h
    simp
  · rw [heq] at h
    exact (processBuf_scan_state (stMeasure st' + 1) st' (by omega) b h).1

theorem C2_amended_scan_buffer_bound_witness :
    ("hello".data).length ≤ 20 :=
  C2_amended_scan_buffer_bound ["hello".data] ("hello".data) (by decide)

/-- Claim C3: delivering a start marker split across two consecutive
fragments produces the same directive events (kind, title, content, order)
and the same concatenated passthrough as delivering it in one fragment. -/
theorem C3_split_marker_boundary_independence
    (pre post : List (List Char)) (a b : List Char)
    (hsplit : ∃ m, (m = saveMarker ∨ m = suggestMarker) ∧
      ∃ m1 m2, m1 ≠ [] ∧ m2 ≠ [] ∧ m = m1 ++ m2 ∧ m1 <:+ a ∧ m2 <+: b) :
    dirsOf (runInterceptor (pre ++ [a, b] ++ post)) =
      dirsOf (runInterceptor (pre ++ [a ++ b] ++ post)) ∧
    passOf (runInterceptor (pre ++ [a, b] ++ post)) =
      passOf (runInterceptor (pre ++ [a ++ b] ++ post)) := by
  have h1 := runInterceptor_join (pre ++ [a, b] ++ post)
  have h2 := runInterceptor_join (pre ++ [a ++ b] ++ post)
  have hj : (pre ++ [a, b] ++ post).join = (pre ++ [a ++ b] ++ post).join := by
    simp
  rw [hj] at h1
  exact ⟨h1.1.trans h2.1.symm, h1.2.trans h2.2.symm⟩

theorem C3_split_marker_boundary_independence_witness :
    dirsOf (runInterceptor (["Hi ".data] ++ ["<<<SA".data, "VE_MEMORY:tea|likes tea>>>".data]
        ++ [" Bye".data])) =
      dirsOf (runInterceptor (["Hi ".data] ++ ["<<<SAVE_MEMORY:tea|likes tea>>>".data]
        ++ [" Bye".data])) ∧
    passOf (runInterceptor (["Hi ".data] ++ ["<<<SA".data, "VE_MEMORY:tea|likes tea>>>".data]
        ++ [" Bye".data])) =
      passOf (runInterceptor (["Hi ".data] ++ ["<<<SAVE_MEMORY:tea|likes tea>>>".data]
        ++ [" Bye".data])) := by
  have h := C3_split_marker_boundary_independence ["Hi ".data] [" Bye".data]
    ("<<<SA".data) ("VE_MEMORY:tea|likes tea>>>".data)
    ⟨saveMarker, Or.inl rfl, "<<<SA".data, "VE_MEMORY:".data,
      by decide, by decide, by decide, by decide, by decide⟩
  have ha : "<<<SA".data ++ "VE_MEMORY:tea|likes tea>>>".data =
      "<<<SAVE_MEMORY:tea|likes tea>>>".data := by decide
  rw [ha] at h
  exact h

/-- Claim C4: if no start marker occurs anywhere in the concatenated input,
the concatenated passthrough equals the concatenated input and no directive
event is produced, for every chunking. -/
theorem C4_transparent_without_markers (toks : List (List Char))
    (h1 : findSub saveMarker toks.join = none)
    (h2 : findSub suggestMarker toks.join = none) :
    passOf (runInterceptor toks) = toks.join ∧ dirsOf (runInterceptor toks) = [] := by
  have hfm : findMarker toks.join = (none, toks.join.length) := by
    rw [findMarker_eq, h1, h2]
  constructor
  · rw [(runInterceptor_join toks).2,
      passOf_runSingle_aux (toks.join.length + 1) toks.join (by omega),
      stripSpec_none hfm]
  · rw [(runInterceptor_join toks).1]
    unfold runSingle
    rw [processBuf_scan_none hfm]
    by_cases h20 : 20 < toks.join.length
    · rw [if_pos h20] ; simp
    · rw [if_neg h20] ; simp

theorem C4_transparent_without_markers_witness :
    passOf (runInterceptor ["hello ".data, "world, some >>> and | text".data]) =
      ("hello ".data ++ "world, some >>> and | text".data) ∧
    dirsOf (runInterceptor ["hello ".data, "world, some >>> and | text".data]) = [] := by
  have h := C4_transparent_without_markers
    ["hello ".data, "world, some >>> and | text".data] (by decide) (by decide)
  simpa using h

/-- Claim C6: while collecting a directive whose terminated body contains no
`'|'` separator, the whole span (start marker, body, end marker) produces no
event at all — no directive event and no passthrough — and the loop resumes
scanning exactly on the text after the end marker. -/
theorem C6_separatorless_body_dropped (m body rest : List Char)
    (hm : m = saveMarker ∨ m = suggestMarker)
    (hsep : ¬ '|' ∈ body)
    (hend : findSub TOOL_END (body ++ TOOL_END ++ rest) = some body.length) :
    processBuf ⟨m ++ body ++ TOOL_END ++ rest, some m⟩ = processBuf ⟨rest, none⟩ := by
  have hfind : findSub TOOL_END ((m ++ body ++ TOOL_END ++ rest).drop m.length) =
      some body.length := by
    have hassoc : m ++ body ++ TOOL_END ++ rest = m ++ (body ++ TOOL_END ++ rest) := by
      simp
    rw [hassoc, List.drop_left]
    exact hend
  rw [processBuf_col_some hfind]
  have htb : (((m ++ body ++ TOOL_END ++ rest).take (m.length + body.length)).drop m.length)
      = body := by
    have hassoc : m ++ body ++ TOOL_END ++ rest = (m ++ body) ++ (TOOL_END ++ rest) := by
      simp
    rw [hassoc]
    have hlen2 : m.length + body.length = (m ++ body).length := (List.length_append _ _).symm
    rw [hlen2, List.take_left, List.drop_left]
  have hafter : (m ++ body ++ TOOL_END ++ rest).drop
      (m.length + body.length + TOOL_END.length) = rest := by
    have hlen3 : m.length + body.length + TOOL_END.length = (m ++ body ++ TOOL_END).length := by
      simp
      omega
    rw [hlen3, List.drop_left]
  rw [htb, hafter]
  have hcon : body.contains '|' = false := by
    rw [← Bool.not_eq_true]
    intro hc
    exact hsep (List.elem_iff.mp hc)
  unfold directiveEvents
  rw [hcon]
  simp

theorem C6_separatorless_body_dropped_witness :
    processBuf ⟨suggestMarker ++ "no_separator_here".data ++ TOOL_END ++ " tail".data,
      some suggestMarker⟩ = processBuf ⟨" tail".data, none⟩ :=
  C6_separatorless_body_dropped suggestMarker ("no_separator_here".data) (" tail".data)
    (Or.inr rfl) (by decide) (by decide)

/-! ### Memory store (app.py: SQLite `memories` table + Chroma index) -/

/-- A row of the SQLite `memories` table. -/
structure MemRow where
  title : List Char
  content : List Char
  createdAt : Nat
  updatedAt : Nat
deriving DecidableEq

/-- The authoritative store: the table rows plus the current value of
`CURRENT_TIMESTAMP` in seconds.  SQLite renders `CURRENT_TIMESTAMP` at
one-second resolution, so several writes can happen while `clock` holds the
same value and then share an `updated_at` stamp; the clock advances only
when wall time does (`tick`), never because a write happened. -/
structure DB where
  rows : List MemRow
  clock : Nat
deriving DecidableEq

/-- Wall time advancing to a later second between operations. -/
def tick (db : DB) (k : Nat) : DB := ⟨db.rows, db.clock + k⟩

/-- `db_upsert`: `INSERT ... ON CONFLICT(title) DO UPDATE SET content,
updated_at = CURRENT_TIMESTAMP`.  The write is stamped with the current
second; writing does not advance time. -/
def db_upsert (db : DB) (t c : List Char) : DB :=
  if db.rows.any (fun r => decide (r.title = t)) then
    ⟨db.rows.map (fun r => if r.title = t then
        { r with content := c, updatedAt := db.clock } else r), db.clock⟩
  else
    ⟨db.rows ++ [⟨t, c, db.clock, db.clock⟩], db.clock⟩

/-- `db_delete`: `DELETE FROM memories WHERE title = ?`. -/
def db_delete (db : DB) (t : List Char) : DB :=
  ⟨db.rows.filter (fun r => decide (¬ r.title = t)), db.clock⟩

/-- Stable insertion sort, descending by a `Nat` key: equal keys keep their
relative order.  This is the behaviour of `ORDER BY updated_at DESC` over
the distinct timestamps of reachable stores, and of Python's stable
`list.sort(key=lambda x: -x[0])`. -/
def insertDescBy {α : Type} (key : α → Nat) (x : α) : List α → List α
  | [] => [x]
  | y :: ys => if key x < key y then y :: insertDescBy key x ys else x :: y :: ys

def sortDescBy {α : Type} (key : α → Nat) : List α → List α
  | [] => []
  | x :: xs => insertDescBy key x (sortDescBy key xs)

/-- `db_all`: `SELECT title, content FROM memories ORDER BY updated_at DESC`
(most-recently-updated first). -/
def db_all (db : DB) : List (List Char × List Char) :=
  (sortDescBy (fun r => r.updatedAt) db.rows).map (fun r => (r.title, r.content))

/-- `GET /api/memories/{title}`: `SELECT title, content ... WHERE title = ?`. -/
def db_get (db : DB) (t : List Char) : Option (List Char × List Char) :=
  (db.rows.find? (fun r => decide (r.title = t))).map (fun r => (r.title, r.content))

/-- An entry of the Chroma vector index
(`ids`, `embeddings`, `documents`, `metadatas`). -/
structure VecEntry where
  vid : List Char
  embedding : List Int
  document : List Char
  mtitle : List Char
deriving DecidableEq

/-- `_chroma_upsert`: skipped entirely when `_get_embedding` returns `None`
(falsy); otherwise upsert by id `title`. -/
def chroma_upsert (vec : List VecEntry) (t c : List Char)
    (emb : Option (List Int)) : List VecEntry :=
  match emb with
  | none => vec
  | some e => ⟨t, e, c, t⟩ :: vec.filter (fun v => decide (¬ v.vid = t))

/-- `_chroma_delete`: best-effort delete; every exception is swallowed,
leaving the index as it was (`raises` models whether Chroma raised). -/
def chroma_delete (vec : List VecEntry) (t : List Char) (raises : Bool) : List VecEntry :=
  if raises then vec else vec.filter (fun v => decide (¬ v.vid = t))

/-- The memory subsystem: authoritative SQLite DB plus best-effort index. -/
structure Sys where
  db : DB
  vec : List VecEntry
deriving DecidableEq

/-- `persist_memory`: the authoritative `db_upsert` always happens; the
Chroma step runs inside `try/except` (`vecRaises` models an exception there,
`emb` the embedding result), so its failure never affects the DB. -/
def persist_memory (sys : Sys) (t c : List Char) (emb : Option (List Int))
    (vecRaises : Bool) : Sys :=
  ⟨db_upsert sys.db t c, if vecRaises then sys.vec else chroma_upsert sys.vec t c emb⟩

/-- `remove_memory`: authoritative delete, then best-effort Chroma delete. -/
def remove_memory (sys : Sys) (t : List Char) (vecRaises : Bool) : Sys :=
  ⟨db_delete sys.db t, chroma_delete sys.vec t vecRaises⟩

/-! ### Lemmas about the stable descending sort -/

theorem mem_insertDescBy {α : Type} {key : α → Nat} {x y : α} {l : List α} :
    y ∈ insertDescBy key x l ↔ y = x ∨ y ∈ l := by
  induction l with
  | nil => simp [insertDescBy]
  | cons z zs ih =>
    unfold insertDescBy
    split
    · simp only [List.mem_cons, ih]
      tauto
    · simp only [List.mem_cons]

theorem mem_sortDescBy {α : Type} {key : α → Nat} {y : α} {l : List α} :
    y ∈ sortDescBy key l ↔ y ∈ l := by
  induction l with
  | nil => simp [sortDescBy]
  | cons z zs ih =>
    unfold sortDescBy
    rw [mem_insertDescBy]
    simp [ih]

theorem length_insertDescBy {α : Type} (key : α → Nat) (x : α) (l : List α) :
    (insertDescBy key x l).length = l.length + 1 := by
  induction l with
  | nil => rfl
  | cons z zs ih =>
    unfold insertDescBy
    split
    · simp [ih]
    · simp

theorem length_sortDescBy {α : Type} (key : α → Nat) (l : List α) :
    (sortDescBy key l).length = l.length := by
  induction l with
  | nil => rfl
  | cons z zs ih =>
    unfold sortDescBy
    rw [length_insertDescBy, ih]
    simp

theorem sorted_insertDescBy {α : Type} {key : α → Nat} {x : α} {l : List α}
    (hl : l.Pairwise (fun a b => key b ≤ key a)) :
    (insertDescBy key x l).Pairwise (fun a b => key b ≤ key a) := by
  induction l with
  | nil => simp [insertDescBy]
  | cons z zs ih =>
    rw [List.pairwise_cons] at hl
    unfold insertDescBy
    split
    · next hlt =>
      rw [List.pairwise_cons]
      refine ⟨?_, ih hl.2⟩
      intro a ha
      rw [mem_insertDescBy] at ha
      rcases ha with rfl | ha
      · omega
      · exact hl.1 a ha
    · next hge =>
      rw [List.pairwise_cons]
      refine ⟨?_, by rw [List.pairwise_cons] ; exact hl⟩
      intro a ha
      simp at ha
      rcases ha with rfl | ha
      · omega
      · have := hl.1 a ha
        omega

theorem sorted_sortDescBy {α : Type} (key : α → Nat) (l : List α) :
    (sortDescBy key l).Pairwise (fun a b => key b ≤ key a) := by
  induction l with
  | nil => simp [sortDescBy]
  | cons z zs ih => exact sorted_insertDescBy ih

/-- Stability: restricting to one key value commutes with the sort. -/
theorem filter_key_insertDescBy {α : Type} (key : α → Nat) (s : Nat) (x : α) (l : List α) :
    (insertDescBy key x l).filter (fun z => decide (key z = s)) =
      if key x = s then x :: l.filter (fun z => decide (key z = s))
      else l.filter (fun z => decide (key z = s)) := by
  induction l with
  | nil =>
    show [x].filter (fun z => decide (key z = s)) = _
    by_cases hx : key x = s <;> simp [hx]
  | cons y ys ih =>
    unfold insertDescBy
    split
    · next hlt =>
      by_cases hx : key x = s
      · have hy : ¬ key y = s := by omega
        simp [List.filter_cons, hy, ih, hx]
      · simp [List.filter_cons, ih, hx]
    · next hge =>
      by_cases hx : key x = s <;> simp [List.filter_cons, hx]

theorem filter_key_sortDescBy {α : Type} (key : α → Nat) (s : Nat) (l : List α) :
    (sortDescBy key l).filter (fun z => decide (key z = s)) =
      l.filter (fun z => decide (key z = s)) := by
  induction l with
  | nil => rfl
  | cons z zs ih =>
    unfold sortDescBy
    rw [filter_key_insertDescBy]
    by_cases hz : key z = s <;> simp [hz, ih]

/-- In a list sorted non-increasingly by `key`, an element whose key
strictly dominates every other element's key is the head. -/
theorem head_of_pairwise_strict_max {α : Type} {key : α → Nat} {l : List α} {u : α}
    (hs : l.Pairwise (fun a b => key b ≤ key a)) (hu : u ∈ l)
    (hmax : ∀ x ∈ l, x = u ∨ key x < key u) :
    l.head? = some u := by
  cases l with
  | nil => simp at hu
  | cons v rest =>
    rcases hmax v (by simp) with rfl | hlt
    · rfl
    · exfalso
      have humem : u ∈ rest := by
        rcases List.mem_cons.mp hu with heq | h
        · rw [heq] at hlt ; omega
        · exact h
      rw [List.pairwise_cons] at hs
      have := hs.1 u humem
      omega

theorem find?_filter_none {α : Type} (l : List α) (p q : α → Bool)
    (h : ∀ x, q x = true → p x = false) : (l.filter q).find? p = none := by
  induction l with
  | nil => rfl
  | cons a as ih =>
    rw [List.filter_cons]
    by_cases hq : q a
    · rw [if_pos (by simp [hq]), List.find?_cons, h a hq]
      exact ih
    · rw [if_neg (by simp [hq])]
      exact ih

theorem mem_db_all {db : DB} {p : List Char × List Char} :
    p ∈ db_all db ↔ ∃ r ∈ db.rows, p = (r.title, r.content) := by
  unfold db_all
  rw [List.mem_map]
  constructor
  · rintro ⟨r, hr, rfl⟩
    exact ⟨r, mem_sortDescBy.mp hr, rfl⟩
  · rintro ⟨r, hr, rfl⟩
    exact ⟨r, mem_sortDescBy.mpr hr, rfl⟩

theorem countP_title_unique (rows : List MemRow) (t : List Char)
    (hnd : (rows.map (fun r => r.title)).Nodup) (hex : ∃ r ∈ rows, r.title = t) :
    rows.countP (fun r => decide (r.title = t)) = 1 := by
  induction rows with
  | nil => simp at hex
  | cons a as ih =>
    rw [List.map_cons, List.nodup_cons] at hnd
    by_cases ha : a.title = t
    · rw [List.countP_cons_of_pos _ _ (by simp [ha])]
      have hz : as.countP (fun r => decide (r.title = t)) = 0 := by
        rw [List.countP_eq_zero]
        intro r hr
        simp only [decide_eq_true_eq]
        intro hrt
        apply hnd.1
        have hmem : r.title ∈ as.map (fun r => r.title) := List.mem_map_of_mem _ hr
        rw [hrt] at hmem
        rw [ha]
        exact hmem
      omega
    · rw [List.countP_cons_of_neg _ _ (by simp [ha])]
      apply ih hnd.2
      rcases hex with ⟨r, hr, hrt⟩
      rcases List.mem_cons.mp hr with rfl | hmem
      · exact absurd hrt ha
      · exact ⟨r, hmem, hrt⟩

/-! ### Claim theorems for the memory store -/

/-- Claim C7: `persist_memory` performs the authoritative upsert whatever
the embedding/vector outcome; `remove_memory` performs the authoritative
delete whatever the vector outcome; and upsert-then-delete leaves zero
records with that title retrievable through `db_get` or `db_all`, for every
combination of vector-index failures. -/
theorem C7_authoritative_survives_vector_failure (sys : Sys) (t c : List Char)
    (emb : Option (List Int)) (f₁ f₂ : Bool) :
    (persist_memory sys t c emb f₁).db = db_upsert sys.db t c ∧
    (remove_memory (persist_memory sys t c emb f₁) t f₂).db =
      db_delete (db_upsert sys.db t c) t ∧
    db_get (remove_memory (persist_memory sys t c emb f₁) t f₂).db t = none ∧
    ∀ p ∈ db_all (remove_memory (persist_memory sys t c emb f₁) t f₂).db, p.1 ≠ t := by
  refine ⟨rfl, rfl, ?_, ?_⟩
  · show db_get (db_delete (db_upsert sys.db t c) t) t = none
    unfold db_get db_delete
    rw [find?_filter_none _ _ _ (fun x hx => by
      simp only [decide_eq_true_eq] at hx
      simp [hx])]
    rfl
  · intro p hp
    have hp' : p ∈ db_all (db_delete (db_upsert sys.db t c) t) := hp
    obtain ⟨r, hr, rfl⟩ := mem_db_all.mp hp'
    unfold db_delete at hr
    simp only [List.mem_filter, decide_eq_true_eq] at hr
    exact hr.2

theorem C7_witness :
    db_get (remove_memory (persist_memory ⟨⟨[], 0⟩, []⟩ ("tea".data) ("likes tea".data)
      none true) ("tea".data) true).db ("tea".data) = none :=
  (C7_authoritative_survives_vector_failure ⟨⟨[], 0⟩, []⟩ ("tea".data)
    ("likes tea".data) none true true).2.2.1

/-- `SELECT title, content FROM memories ORDER BY updated_at DESC`, with no
guarantee beyond the ordering clause: a valid listing is any arrangement of
the rows that is non-increasing in `updated_at`.  Rows whose stamps tie
(written within the same `CURRENT_TIMESTAMP` second) may come out in either
order. -/
def IsListAll (db : DB) (l : List (List Char × List Char)) : Prop :=
  ∃ rows' : List MemRow, List.Perm rows' db.rows ∧
    rows'.Pairwise (fun a b => b.updatedAt ≤ a.updatedAt) ∧
    l = rows'.map (fun r => (r.title, r.content))

/-- Claim C8 counterexample: `CURRENT_TIMESTAMP` has one-second resolution,
so an upsert in the same second as a sibling write produces a tied
`updated_at`, and `ORDER BY updated_at DESC` guarantees nothing among ties.
Here "t" is written at second 0, "x" at second 5, and "t" is re-upserted
still within second 5: a listing with "x" first is a valid `ORDER BY`
result in which the re-upserted record is not the first element. -/
theorem C8_counterexample :
    IsListAll
      (db_upsert (db_upsert (tick (db_upsert ⟨[], 0⟩ ("t".data) ("old".data)) 5)
        ("x".data) ("v".data)) ("t".data) ("new".data))
      [("x".data, "v".data), ("t".data, "new".data)] ∧
    ([("x".data, "v".data), ("t".data, "new".data)].head? ≠
      some ("t".data, "new".data)) := by
  constructor
  · refine ⟨[⟨"x".data, "v".data, 5, 5⟩, ⟨"t".data, "new".data, 0, 5⟩], ?_, ?_, ?_⟩
    · decide
    · decide
    · decide
  · decide

/-- Claim C8 (amended: the fronting needs the new stamp to be strictly
newer than every other row's, i.e. no sibling write within the same
one-second `CURRENT_TIMESTAMP` value — with a same-second sibling the tied
order is unspecified): upserting an existing title `t` replaces that
record's content; the store still contains exactly one record with title
`t`; and, provided every other row is strictly older than the current
second, every valid `ORDER BY updated_at DESC` listing has the upserted
record first. -/
theorem C8_amended_reupsert_replaces_and_fronts (db : DB) (t c' : List Char)
    (hnd : (db.rows.map (fun r => r.title)).Nodup)
    (hex : ∃ r ∈ db.rows, r.title = t)
    (hfresh : ∀ r ∈ db.rows, r.title = t ∨ r.updatedAt < db.clock) :
    db_get (db_upsert db t c') t = some (t, c') ∧
    (∀ l, IsListAll (db_upsert db t c') l → l.head? = some (t, c')) ∧
    (db_upsert db t c').rows.countP (fun r => decide (r.title = t)) = 1 := by
  have hany : db.rows.any (fun r => decide (r.title = t)) = true := by
    rw [List.any_eq_true]
    rcases hex with ⟨r, hr, hrt⟩
    exact ⟨r, hr, by simp [hrt]⟩
  have hup : db_upsert db t c' =
      ⟨db.rows.map (fun r => if r.title = t then
        { r with content := c', updatedAt := db.clock } else r), db.clock⟩ := by
    unfold db_upsert
    rw [if_pos hany]
  obtain ⟨r₀, hr₀, hr₀t⟩ := hex
  have huniq : ∀ r ∈ db.rows, r.title = t → r = r₀ := by
    intro r hr hrt
    exact List.inj_on_of_nodup_map hnd hr hr₀ (by rw [hrt, hr₀t])
  refine ⟨?_, ?_, ?_⟩
  · rw [hup]
    unfold db_get
    have hfind : ∀ rows : List MemRow, (∃ r ∈ rows, r.title = t) →
        ((rows.map (fun r => if r.title = t then
          { r with content := c', updatedAt := db.clock } else r)).find?
            (fun r => decide (r.title = t))).map (fun r => (r.title, r.content)) =
          some (t, c') := by
      intro rows
      induction rows with
      | nil => intro h ; simp at h
      | cons a as ih =>
        intro h
        by_cases hat : a.title = t
        · rw [List.map_cons, if_pos hat, List.find?_cons]
          rw [show (decide (({ a with content := c', updatedAt := db.clock } : MemRow).title
            = t)) = true by simp [hat]]
          simp [hat]
        · rw [List.map_cons, if_neg hat, List.find?_cons]
          rw [show (decide (a.title = t)) = false by simp [hat]]
          apply ih
          rcases h with ⟨r, hr, hrt⟩
          rcases List.mem_cons.mp hr with rfl | hmem
          · exact absurd hrt hat
          · exact ⟨r, hmem, hrt⟩
    exact hfind db.rows ⟨r₀, hr₀, hr₀t⟩
  · intro l hl
    obtain ⟨rows', hperm, hsorted, rfl⟩ := hl
    have humem₁ : ({ r₀ with content := c', updatedAt := db.clock } : MemRow) ∈
        (db_upsert db t c').rows := by
      rw [hup]
      rw [List.mem_map]
      exact ⟨r₀, hr₀, by rw [if_pos hr₀t]⟩
    have humem : ({ r₀ with content := c', updatedAt := db.clock } : MemRow) ∈ rows' :=
      hperm.mem_iff.mpr humem₁
    have hmax : ∀ x ∈ rows', x = ({ r₀ with content := c', updatedAt := db.clock } : MemRow) ∨
        x.updatedAt < ({ r₀ with content := c', updatedAt := db.clock } : MemRow).updatedAt := by
      intro x hx
      have hx₁ : x ∈ (db_upsert db t c').rows := hperm.mem_iff.mp hx
      rw [hup] at hx₁
      rw [List.mem_map] at hx₁
      obtain ⟨r, hr, rfl⟩ := hx₁
      by_cases hrt : r.title = t
      · left
        rw [if_pos hrt, huniq r hr hrt]
      · right
        rw [if_neg hrt]
        rcases hfresh r hr with habs | hlt
        · exact absurd habs hrt
        · exact hlt
    have hhead := head_of_pairwise_strict_max hsorted humem hmax
    rw [List.head?_map, hhead]
    simp [hr₀t]
  · rw [hup]
    rw [List.countP_map]
    have hsame : ∀ r : MemRow,
        (((fun r => decide (r.title = t)) ∘ (fun r => if r.title = t then
          { r with content := c', updatedAt := db.clock } else r)) r = true ↔
        (fun r => decide (r.title = t)) r = true) := by
      intro r
      by_cases hrt : r.title = t <;> simp [hrt]
    rw [List.countP_congr (fun r _ => hsame r)]
    exact countP_title_unique db.rows t hnd ⟨r₀, hr₀, hr₀t⟩

theorem C8_amended_witness :
    db_get (db_upsert ⟨[⟨"t".data, "old".data, 0, 0⟩], 1⟩ ("t".data) ("new".data))
        ("t".data) = some ("t".data, "new".data) ∧
    ([("t".data, "new".data)] : List (List Char × List Char)).head? =
        some ("t".data, "new".data) ∧
    (db_upsert ⟨[⟨"t".data, "old".data, 0, 0⟩], 1⟩ ("t".data) ("new".data)).rows.countP
        (fun r => decide (r.title = "t".data)) = 1 := by
  have h := C8_amended_reupsert_replaces_and_fronts ⟨[⟨"t".data, "old".data, 0, 0⟩], 1⟩
    ("t".data) ("new".data) (by decide)
    ⟨⟨"t".data, "old".data, 0, 0⟩, by decide, by decide⟩ (by decide)
  exact ⟨h.1, h.2.1 [("t".data, "new".data)]
    ⟨[⟨"t".data, "new".data, 0, 1⟩], by decide, by decide, by decide⟩, h.2.2⟩

/-- Claim C10: removing an absent title is a no-op on the authoritative
store — it signals no error (the model is total), `db_all`/`db_get` are
unchanged — and `remove_memory` is idempotent (two deletes of the same
title equal one, the surviving vector-failure flag being the conjunction). -/
theorem C10_remove_absent_noop (sys : Sys) (t : List Char) (f : Bool)
    (habs : ∀ r ∈ sys.db.rows, r.title ≠ t) :
    (remove_memory sys t f).db = sys.db ∧
    db_all (remove_memory sys t f).db = db_all sys.db ∧
    (∀ t', db_get (remove_memory sys t f).db t' = db_get sys.db t') ∧
    (∀ f₁ f₂ : Bool, remove_memory (remove_memory sys t f₁) t f₂ =
      remove_memory sys t (f₁ && f₂)) := by
  have hdb : db_delete sys.db t = sys.db := by
    unfold db_delete
    have hfe : sys.db.rows.filter (fun r => decide (¬ r.title = t)) = sys.db.rows :=
      List.filter_eq_self.mpr (fun r hr => by simpa using habs r hr)
    rw [hfe]
  refine ⟨hdb, ?_, ?_, ?_⟩
  · show db_all (db_delete sys.db t) = db_all sys.db
    rw [hdb]
  · intro t'
    show db_get (db_delete sys.db t) t' = db_get sys.db t'
    rw [hdb]
  · intro f₁ f₂
    show (⟨db_delete (db_delete sys.db t) t,
        chroma_delete (chroma_delete sys.vec t f₁) t f₂⟩ : Sys) =
      ⟨db_delete sys.db t, chroma_delete sys.vec t (f₁ && f₂)⟩
    have hdd : db_delete (db_delete sys.db t) t = db_delete sys.db t := by
      unfold db_delete
      simp [List.filter_filter]
    rw [hdd]
    cases f₁ <;> cases f₂ <;> simp [chroma_delete, List.filter_filter]

theorem C10_witness :
    (remove_memory ⟨⟨[⟨"x".data, "v".data, 0, 0⟩], 1⟩, []⟩ ("y".data) false).db =
      ⟨[⟨"x".data, "v".data, 0, 0⟩], 1⟩ :=
  (C10_remove_absent_noop ⟨⟨[⟨"x".data, "v".data, 0, 0⟩], 1⟩, []⟩ ("y".data) false
    (by decide)).1

/-! ### Tier-2 lexical retrieval (app.py: db_keyword_search) -/

/-- Python `str.split()` with no argument: maximal runs of non-whitespace
characters, via an accumulator. -/
def pySplitAux : List Char → List Char → List (List Char)
  | [], acc => if acc.isEmpty then [] else [acc.reverse]
  | c :: rest, acc =>
    if isPySpace c then
      if acc.isEmpty then pySplitAux rest [] else acc.reverse :: pySplitAux rest []
    else pySplitAux rest (c :: acc)

def pySplit (s : List Char) : List (List Char) := pySplitAux s []

/-- Python `str.lower()` (ASCII). -/
def lowerStr (s : List Char) : List Char := s.map Char.toLower

/-- The `terms` local of `db_keyword_search`:
`[t for t in query.lower().split() if len(t) > 2]`. -/
def tier2Terms (query : List Char) : List (List Char) :=
  (pySplit (lowerStr query)).filter (fun t => decide (2 < t.length))

/-- The per-record score of `db_keyword_search`
(`sum(1 for t in terms if t in haystack)` with
`haystack = (title + " " + content).lower()`): qualifying terms counted
with multiplicity, each contributing at most 1 however often it occurs in
the haystack. -/
def tier2Score (query : List Char) (row : List Char × List Char) : Nat :=
  (tier2Terms query).countP
    (fun t => (findSub t (lowerStr (row.1 ++ (' ' :: row.2)))).isSome)

/-- `db_keyword_search(query, n)`: score every `db_all` record, keep the
positive scores, stable-sort descending by score (Python `list.sort` is
stable, so equal scores keep `db_all`'s most-recently-updated-first order)
and return the top `n` records; with no qualifying terms, `db_all()[:n]`. -/
def db_keyword_search (db : DB) (query : List Char) (n : Nat) :
    List (List Char × List Char) :=
  if (tier2Terms query).isEmpty then (db_all db).take n
  else
    ((sortDescBy (fun x => x.1)
        ((db_all db).filterMap (fun row =>
          if 0 < tier2Score query row then some (tier2Score query row, row)
          else none))).take n).map (fun x => x.2)

/-- The score exactly as claim C5 words it: DISTINCT qualifying terms only,
duplicated query terms counted once. -/
def tier2DistinctScore (query : List Char) (row : List Char × List Char) : Nat :=
  ((tier2Terms query).dedup).countP
    (fun t => (findSub t (lowerStr (row.1 ++ (' ' :: row.2)))).isSome)

theorem filterMap_scored (rows : List (List Char × List Char)) (q : List Char) :
    rows.filterMap (fun row =>
        if 0 < tier2Score q row then some (tier2Score q row, row) else none) =
      (rows.filter (fun r => decide (0 < tier2Score q r))).map
        (fun r => (tier2Score q r, r)) := by
  induction rows with
  | nil => rfl
  | cons a as ih =>
    rw [List.filterMap_cons, List.filter_cons]
    by_cases ha : 0 < tier2Score q a
    · rw [if_pos ha, if_pos (by simp [ha]), List.map_cons, ih]
    · rw [if_neg ha, if_neg (by simp [ha])]
      exact ih

theorem filter_take_prefix {α : Type} (p : α → Bool) (l : List α) (n : Nat) :
    (l.take n).filter p <+: l.filter p := by
  induction l generalizing n with
  | nil => simp
  | cons a as ih =>
    cases n with
    | zero => simp
    | succ n' =>
      rw [List.take_succ_cons, List.filter_cons, List.filter_cons]
      by_cases ha : p a
      · simp only [ha, if_true]
        obtain ⟨t, ht⟩ := ih n'
        exact ⟨t, by rw [List.cons_append, ht]⟩
      · simp only [ha, if_false]
        exact ih n'

/-- Decorating each element with its key and sorting by the first component
is the same as sorting by the key and then decorating. -/
theorem insertDescBy_map_pair {α : Type} (f : α → Nat) (a : α) (l : List α) :
    insertDescBy (fun x : Nat × α => x.1) (f a, a) (l.map (fun r => (f r, r))) =
      (insertDescBy f a l).map (fun r => (f r, r)) := by
  induction l with
  | nil => rfl
  | cons y ys ih =>
    show insertDescBy (fun x : Nat × α => x.1) (f a, a) ((f y, y) :: ys.map _) = _
    unfold insertDescBy
    by_cases hc : f a < f y
    · rw [if_pos hc, if_pos hc, ih]
      rfl
    · rw [if_neg hc, if_neg hc]
      rfl

theorem sortDescBy_map_pair {α : Type} (f : α → Nat) (l : List α) :
    sortDescBy (fun x : Nat × α => x.1) (l.map (fun r => (f r, r))) =
      (sortDescBy f l).map (fun r => (f r, r)) := by
  induction l with
  | nil => rfl
  | cons a as ih =>
    show insertDescBy (fun x : Nat × α => x.1) (f a, a)
        (sortDescBy (fun x : Nat × α => x.1) (as.map (fun r => (f r, r)))) = _
    rw [ih]
    exact insertDescBy_map_pair f a (sortDescBy f as)

theorem db_keyword_search_eq (db : DB) (query : List Char) (n : Nat)
    (h : tier2Terms query ≠ []) :
    db_keyword_search db query n =
      ((sortDescBy (fun x => x.1)
        (((db_all db).filter (fun r => decide (0 < tier2Score query r))).map
          (fun r => (tier2Score query r, r)))).take n).map (fun x => x.2) := by
  unfold db_keyword_search
  rw [if_neg (by rw [List.isEmpty_iff] ; exact h), filterMap_scored]

/-- A two-record store whose `db_all` order is
`[("a","tea"), ("b","cup pot")]` (record "a" most recently updated). -/
def exDB : DB := ⟨[⟨"a".data, "tea".data, 1, 1⟩, ⟨"b".data, "cup pot".data, 0, 0⟩], 2⟩

/-- Claim C5 counterexample: with the query `"tea tea tea cup pot"`, the code
scores terms with multiplicity (record "a" scores 3, record "b" scores 2)
and returns `[a, b]`, but the distinct-term score of the claim ranks them
a = 1 < b = 2, so the output is not sorted by descending distinct-term
score as the claim states. -/
theorem C5_counterexample :
    db_keyword_search exDB ("tea tea tea cup pot".data) 6 =
      [("a".data, "tea".data), ("b".data, "cup pot".data)] ∧
    tier2DistinctScore ("tea tea tea cup pot".data) ("a".data, "tea".data) <
      tier2DistinctScore ("tea tea tea cup pot".data) ("b".data, "cup pot".data) := by
  constructor
  · decide
  · decide

/-- Claim C5 (amended: a term repeated in the query contributes once per
repetition, i.e. scores count query terms with multiplicity; repeats in the
haystack still count at most once per term): for a query with at least one
qualifying term, `db_keyword_search` returns exactly the first `n` records
of the stable descending-score sort of the kept (positive-score) records —
the top `n` — where `sortDescBy` sorts by descending score keeping ties in
`db_all`'s most-recently-updated-first order (per `sorted_sortDescBy` and
`filter_key_sortDescBy`); spelled out, the result is sorted by descending
score, each score class is an initial segment of the kept records in store
order, and the length is `min n` (number of kept records). -/
theorem C5_amended_tier2_characterization (db : DB) (query : List Char) (n : Nat)
    (hterms : tier2Terms query ≠ []) :
    db_keyword_search db query n =
      ((sortDescBy (fun r => tier2Score query r)
        ((db_all db).filter (fun r => decide (0 < tier2Score query r)))).take n) ∧
    (db_keyword_search db query n).Pairwise
      (fun r₁ r₂ => tier2Score query r₂ ≤ tier2Score query r₁) ∧
    (∀ s : Nat, (db_keyword_search db query n).filter
        (fun r => decide (tier2Score query r = s)) <+:
      ((db_all db).filter (fun r => decide (0 < tier2Score query r))).filter
        (fun r => decide (tier2Score query r = s))) ∧
    (db_keyword_search db query n).length =
      min n ((db_all db).filter (fun r => decide (0 < tier2Score query r))).length := by
  rw [db_keyword_search_eq db query n hterms]
  have hmem_sorted : ∀ x ∈ sortDescBy (fun x => x.1)
      (((db_all db).filter (fun r => decide (0 < tier2Score query r))).map
        (fun r => (tier2Score query r, r))), x.1 = tier2Score query x.2 := by
    intro x hx
    rw [mem_sortDescBy, List.mem_map] at hx
    obtain ⟨r, hr, rfl⟩ := hx
    rfl
  refine ⟨?_, ?_, ?_, ?_⟩
  · rw [sortDescBy_map_pair (fun r => tier2Score query r)
      ((db_all db).filter (fun r => decide (0 < tier2Score query r)))]
    rw [← List.map_take, List.map_map]
    rw [show ((fun x : Nat × (List Char × List Char) => x.2) ∘
      (fun r => (tier2Score query r, r))) = fun r => r from rfl, List.map_id']
  · have hs := sorted_sortDescBy (fun x : Nat × (List Char × List Char) => x.1)
      (((db_all db).filter (fun r => decide (0 < tier2Score query r))).map
        (fun r => (tier2Score query r, r)))
    have htake := hs.sublist (List.take_sublist n _)
    rw [List.pairwise_map]
    refine List.Pairwise.imp_of_mem ?_ htake
    intro a b ha hb hab
    have ha' := hmem_sorted a (List.take_subset n _ ha)
    have hb' := hmem_sorted b (List.take_subset n _ hb)
    rw [← ha', ← hb']
    exact hab
  · intro s
    rw [List.filter_map]
    have hcongr : ((sortDescBy (fun x => x.1)
        (((db_all db).filter (fun r => decide (0 < tier2Score query r))).map
          (fun r => (tier2Score query r, r)))).take n).filter
        ((fun r => decide (tier2Score query r = s)) ∘ (fun x => x.2)) =
        ((sortDescBy (fun x => x.1)
        (((db_all db).filter (fun r => decide (0 < tier2Score query r))).map
          (fun r => (tier2Score query r, r)))).take n).filter
          (fun x => decide (x.1 = s)) := by
      apply List.filter_congr
      intro x hx
      have hxs := hmem_sorted x (List.take_subset n _ hx)
      simp [Function.comp, hxs]
    rw [hcongr]
    have hpre := filter_take_prefix (fun x : Nat × (List Char × List Char) => decide (x.1 = s))
      (sortDescBy (fun x => x.1)
        (((db_all db).filter (fun r => decide (0 < tier2Score query r))).map
          (fun r => (tier2Score query r, r)))) n
    rw [filter_key_sortDescBy] at hpre
    have hC : (((db_all db).filter (fun r => decide (0 < tier2Score query r))).map
        (fun r => (tier2Score query r, r))).filter (fun x => decide (x.1 = s)) =
        ((((db_all db).filter (fun r => decide (0 < tier2Score query r))).filter
          (fun r => decide (tier2Score query r = s))).map (fun r => (tier2Score query r, r))) := by
      rw [List.filter_map]
      congr 1
    have hmap := hpre.map (fun x : Nat × (List Char × List Char) => x.2)
    rw [hC] at hmap
    rw [List.map_map] at hmap
    have hid : ((((db_all db).filter (fun r => decide (0 < tier2Score query r))).filter
        (fun r => decide (tier2Score query r = s))).map
          ((fun x : Nat × (List Char × List Char) => x.2) ∘ (fun r => (tier2Score query r, r)))) =
        (((db_all db).filter (fun r => decide (0 < tier2Score query r))).filter
          (fun r => decide (tier2Score query r = s))) := by
      rw [show ((fun x : Nat × (List Char × List Char) => x.2) ∘
        (fun r => (tier2Score query r, r))) = fun r => r from rfl, List.map_id']
    rw [hid] at hmap
    exact hmap
  · rw [List.length_map, List.length_take, length_sortDescBy, List.length_map]

theorem C5_amended_witness :
    db_keyword_search exDB ("tea cup".data) 6 =
      ((sortDescBy (fun r => tier2Score ("tea cup".data) r)
        ((db_all exDB).filter
          (fun r => decide (0 < tier2Score ("tea cup".data) r)))).take 6) :=
  (C5_amended_tier2_characterization exDB ("tea cup".data) 6 (by decide)).1

/-! ### Session orchestrator (app.py: _stream_chat event stream) -/

/-- An outbound server-sent event of `_stream_chat`. -/
inductive OutEv where
  | token : List Char → OutEv
  | tool : Bool → List Char → List Char → OutEv
  | error : List Char → OutEv
  | done : OutEv
deriving DecidableEq

def evToOut : Ev → OutEv
  | Ev.tok s => OutEv.token s
  | Ev.tool b t c => OutEv.tool b t c

/-- The event stream of `_stream_chat` once the chat POST has responded:
a non-200 status yields one `{error: body}` event and returns from the
generator (the terminal `{done: true}` yield is never reached); on a 200
the token stream runs through the interceptor and the done event follows. -/
def stream_chat (status : Nat) (errBody : List Char) (toks : List (List Char)) :
    List OutEv :=
  if status ≠ 200 then [OutEv.error errBody]
  else (runInterceptor toks).map evToOut ++ [OutEv.done]

/-- Claim C9: when the chat backend's initial response has a non-success
status, the orchestrator emits exactly one event — a structured error event
carrying the backend's body — and terminates with no passthrough, directive
or done event. -/
theorem C9_error_short_circuit (status : Nat) (errBody : List Char)
    (toks : List (List Char)) (h : status ≠ 200) :
    stream_chat status errBody toks = [OutEv.error errBody] := by
  unfold stream_chat
  rw [if_pos h]

theorem C9_error_short_circuit_witness :
    stream_chat 500 ("model not found".data) ["ignored tokens".data] =
      [OutEv.error ("model not found".data)] :=
  C9_error_short_circuit 500 ("model not found".data) ["ignored tokens".data] (by decide)

end Aether
